import Mathlib

/-!
Verification of the chunked translation pipeline in `src/translateMd.js`
(repository tomaslin/pdfDownloader).

Texts are modelled as `List Char` (one entry per character of the JS
string).  JS string primitives used by the source are embedded directly:

* `text.substring(a, b)`  becomes `jsSubstring`
* `text.substring(a)`     becomes `jsSubstringFrom`
* `text.lastIndexOf(pat, pos)` becomes `jsLastIndexOf` — per the JS
  semantics it returns the largest index `n ≤ pos` such that `pat`
  occurs in `text` starting at `n` (`none` plays the role of `-1`).

The source constants (`translateMd.js` lines 5-7).
-/

def LARGE_FILE_THRESHOLD : Nat := 10000

def CHUNK_SIZE : Nat := 10000

def CONCURRENCY_LIMIT : Nat := 10

/-- `text.substring(a, b)` for `a ≤ b`: the characters in positions `[a, b)`. -/
def jsSubstring (text : List Char) (a b : Nat) : List Char := (text.take b).drop a

/-- `text.substring(a)`: the characters from position `a` on. -/
def jsSubstringFrom (text : List Char) (a : Nat) : List Char := text.drop a

/-- `pat` occurs in `text` starting at position `p`. -/
def occursAt (text pat : List Char) (p : Nat) : Bool := pat.isPrefixOf (text.drop p)

/-- JS `text.lastIndexOf(pat, pos)`: the largest `n ≤ pos` at which `pat`
occurs (searching backward from `pos`); `none` encodes JS's `-1`. -/
def jsLastIndexOf (text pat : List Char) : Nat → Option Nat
  | 0 => if occursAt text pat 0 then some 0 else none
  | n + 1 => if occursAt text pat (n + 1) then some (n + 1) else jsLastIndexOf text pat n

/-- One boundary probe of `splitTextIntoChunks` (`translateMd.js` lines
134-141): `text.lastIndexOf(pat, endIndex)` followed by the guard
`splitPos <= startIndex` (which also absorbs the `-1` not-found result):
the probe succeeds only when the boundary starts strictly after the
cursor. -/
def boundarySearch (text pat : List Char) (endIndex startIndex : Nat) : Option Nat :=
  match jsLastIndexOf text pat endIndex with
  | none => none
  | some p => if p ≤ startIndex then none else some p

/-- The paragraph-break boundary `"\n\n"`. -/
def parBreak : List Char := ['\n', '\n']

/-- The sentence boundary `". "`. -/
def dotSpace : List Char := ['.', ' ']

/-- The line-break boundary `"\n"`. -/
def oneBreak : List Char := ['\n']

/-- The split position chosen by one non-final iteration of the
`splitTextIntoChunks` loop (`translateMd.js` lines 133-152): try a
paragraph break, then a sentence break, then a line break — each time
keeping the result only if it lies strictly after the cursor — and fall
back to a hard cut at `startIndex + maxSize`.  A found boundary is
included in the chunk (`+ 2`, `+ 2`, `+ 1`). -/
def splitStep (text : List Char) (maxSize startIndex : Nat) : Nat :=
  match boundarySearch text parBreak (startIndex + maxSize) startIndex with
  | some p => p + 2
  | none =>
    match boundarySearch text dotSpace (startIndex + maxSize) startIndex with
    | some p => p + 2
    | none =>
      match boundarySearch text oneBreak (startIndex + maxSize) startIndex with
      | some p => p + 1
      | none => startIndex + maxSize

/-- The `while (startIndex < text.length)` loop of `splitTextIntoChunks`
(`translateMd.js` lines 126-156), with an explicit fuel argument.  When
`maxSize > 0` the cursor strictly increases on every iteration, so fuel
`text.length` (supplied by `splitTextIntoChunks`) always suffices; the
fuel-out result `[]` is never reached in that case. -/
def splitGo (text : List Char) (maxSize : Nat) : Nat → Nat → List (List Char)
  | 0, _ => []
  | fuel + 1, startIndex =>
    if startIndex < text.length then
      if text.length ≤ startIndex + maxSize then
        [jsSubstringFrom text startIndex]
      else
        let splitPos := splitStep text maxSize startIndex
        jsSubstring text startIndex splitPos :: splitGo text maxSize fuel splitPos
    else []

/-- `splitTextIntoChunks(text, maxSize)` (`translateMd.js` lines 123-158). -/
def splitTextIntoChunks (text : List Char) (maxSize : Nat) : List (List Char) :=
  splitGo text maxSize text.length 0

example : splitTextIntoChunks "ab\n\ncd".data 3 = ["ab\n\n".data, "cd".data] := by decide

example : splitTextIntoChunks "abc\n\nx".data 3 = ["abc\n\n".data, "x".data] := by decide

example : splitTextIntoChunks [] 3 = [] := by rfl

example : splitTextIntoChunks "abcdefg".data 3 = ["abc".data, "def".data, "g".data] := by decide

/-! ### Specification of `jsLastIndexOf` and `boundarySearch` -/

theorem occursAt_add_length_le (text pat : List Char) (p : Nat)
    (hpat : 0 < pat.length) (h : occursAt text pat p = true) :
    p + pat.length ≤ text.length := by
  have hpre : pat <+: text.drop p := List.isPrefixOf_iff_prefix.mp h
  have := hpre.length_le
  rw [List.length_drop] at this
  omega

theorem jsLastIndexOf_some (text pat : List Char) (n p : Nat)
    (h : jsLastIndexOf text pat n = some p) :
    occursAt text pat p = true ∧ p ≤ n ∧
      ∀ q, q ≤ n → occursAt text pat q = true → q ≤ p := by
  induction n with
  | zero =>
    by_cases hc : occursAt text pat 0 = true
    · simp [jsLastIndexOf, hc] at h
      subst h
      exact ⟨hc, le_refl _, fun q hq _ => hq⟩
    · simp [jsLastIndexOf, hc] at h
  | succ m ih =>
    by_cases hc : occursAt text pat (m + 1) = true
    · simp [jsLastIndexOf, hc] at h
      subst h
      exact ⟨hc, le_refl _, fun q hq _ => hq⟩
    · simp only [jsLastIndexOf, hc, if_false] at h
      obtain ⟨h1, h2, h3⟩ := ih h
      refine ⟨h1, Nat.le_succ_of_le h2, fun q hq hocc => ?_⟩
      rcases Nat.lt_or_ge q (m + 1) with hlt | hge
      · exact h3 q (Nat.lt_succ_iff.mp hlt) hocc
      · have : q = m + 1 := Nat.le_antisymm hq hge
        subst this
        exact absurd hocc hc

theorem jsLastIndexOf_none (text pat : List Char) (n : Nat)
    (h : jsLastIndexOf text pat n = none) :
    ∀ q, q ≤ n → occursAt text pat q = false := by
  induction n with
  | zero =>
    intro q hq
    interval_cases q
    by_cases hc : occursAt text pat 0 = true
    · simp [jsLastIndexOf, hc] at h
    · simpa using hc
  | succ m ih =>
    by_cases hc : occursAt text pat (m + 1) = true
    · simp [jsLastIndexOf, hc] at h
    · simp only [jsLastIndexOf, hc, if_false] at h
      intro q hq
      rcases Nat.lt_or_ge q (m + 1) with hlt | hge
      · exact ih h q (Nat.lt_succ_iff.mp hlt)
      · have : q = m + 1 := Nat.le_antisymm hq hge
        subst this
        simpa using hc

/-- A boundary position strictly after the cursor, at or before the
candidate end, maximal among all such boundary positions at or before
the candidate end. -/
def bestBoundaryIn (text pat : List Char) (startIndex endIndex p : Nat) : Prop :=
  occursAt text pat p = true ∧ startIndex < p ∧ p ≤ endIndex ∧
    ∀ q, startIndex < q → q ≤ endIndex → occursAt text pat q = true → q ≤ p

/-- No boundary lies strictly after the cursor (up to the candidate end). -/
def noBoundaryIn (text pat : List Char) (startIndex endIndex : Nat) : Prop :=
  ∀ q, startIndex < q → q ≤ endIndex → occursAt text pat q = false

theorem boundarySearch_some (text pat : List Char) (e s p : Nat)
    (h : boundarySearch text pat e s = some p) : bestBoundaryIn text pat s e p := by
  unfold boundarySearch at h
  cases hj : jsLastIndexOf text pat e with
  | none => rw [hj] at h; simp at h
  | some p' =>
    rw [hj] at h
    by_cases hle : p' ≤ s
    · simp [hle] at h
    · simp [hle] at h
      subst h
      obtain ⟨h1, h2, h3⟩ := jsLastIndexOf_some text pat e p' hj
      exact ⟨h1, Nat.lt_of_not_le hle, h2, fun q _ hq hocc => h3 q hq hocc⟩

theorem boundarySearch_none (text pat : List Char) (e s : Nat)
    (h : boundarySearch text pat e s = none) : noBoundaryIn text pat s e := by
  unfold boundarySearch at h
  cases hj : jsLastIndexOf text pat e with
  | none =>
    intro q hq1 hq2
    exact jsLastIndexOf_none text pat e hj q hq2
  | some p' =>
    rw [hj] at h
    by_cases hle : p' ≤ s
    · intro q hq1 hq2
      obtain ⟨_, _, h3⟩ := jsLastIndexOf_some text pat e p' hj
      by_contra hocc
      rw [Bool.not_eq_false] at hocc
      have := h3 q hq2 hocc
      omega
    · simp [hle] at h

/-! ### Cursor bounds for `splitStep` -/

theorem splitStep_gt (text : List Char) (maxSize startIndex : Nat) (hM : 0 < maxSize) :
    startIndex < splitStep text maxSize startIndex := by
  unfold splitStep
  cases h1 : boundarySearch text parBreak (startIndex + maxSize) startIndex with
  | some p => have := (boundarySearch_some _ _ _ _ _ h1).2.1; simpa using by omega
  | none =>
    cases h2 : boundarySearch text dotSpace (startIndex + maxSize) startIndex with
    | some p => have := (boundarySearch_some _ _ _ _ _ h2).2.1; simpa using by omega
    | none =>
      cases h3 : boundarySearch text oneBreak (startIndex + maxSize) startIndex with
      | some p => have := (boundarySearch_some _ _ _ _ _ h3).2.1; simpa using by omega
      | none => simpa using by omega

theorem splitStep_le_add_two (text : List Char) (maxSize startIndex : Nat) :
    splitStep text maxSize startIndex ≤ startIndex + maxSize + 2 := by
  unfold splitStep
  cases h1 : boundarySearch text parBreak (startIndex + maxSize) startIndex with
  | some p => have := (boundarySearch_some _ _ _ _ _ h1).2.2.1; simpa using by omega
  | none =>
    cases h2 : boundarySearch text dotSpace (startIndex + maxSize) startIndex with
    | some p => have := (boundarySearch_some _ _ _ _ _ h2).2.2.1; simpa using by omega
    | none =>
      cases h3 : boundarySearch text oneBreak (startIndex + maxSize) startIndex with
      | some p => have := (boundarySearch_some _ _ _ _ _ h3).2.2.1; simpa using by omega
      | none => simpa using by omega

theorem splitStep_le_length (text : List Char) (maxSize startIndex : Nat)
    (h : startIndex + maxSize < text.length) :
    splitStep text maxSize startIndex ≤ text.length := by
  unfold splitStep
  cases h1 : boundarySearch text parBreak (startIndex + maxSize) startIndex with
  | some p =>
    obtain ⟨hocc, _, _, _⟩ := boundarySearch_some _ _ _ _ _ h1
    have h2 : parBreak.length = 2 := rfl
    have := occursAt_add_length_le text parBreak p (by decide) hocc
    rw [h2] at this
    simpa using by omega
  | none =>
    cases h2 : boundarySearch text dotSpace (startIndex + maxSize) startIndex with
    | some p =>
      obtain ⟨hocc, _, _, _⟩ := boundarySearch_some _ _ _ _ _ h2
      have hl : dotSpace.length = 2 := rfl
      have := occursAt_add_length_le text dotSpace p (by decide) hocc
      rw [hl] at this
      simpa using by omega
    | none =>
      cases h3 : boundarySearch text oneBreak (startIndex + maxSize) startIndex with
      | some p =>
        obtain ⟨hocc, _, _, _⟩ := boundarySearch_some _ _ _ _ _ h3
        have hl : oneBreak.length = 1 := rfl
        have := occursAt_add_length_le text oneBreak p (by decide) hocc
        rw [hl] at this
        simpa using by omega
      | none => simpa using by omega

/-! ### Round trip (claim C1) -/

theorem drop_take_append_drop (l : List Char) (a b : Nat) (hab : a ≤ b) :
    (l.take b).drop a ++ l.drop b = l.drop a := by
  conv_rhs => rw [← List.take_append_drop b l]
  rw [List.drop_append_eq_append_drop]
  rcases le_or_lt b l.length with hb | hb
  · have : (l.take b).length = b := by
      rw [List.length_take]; omega
    rw [this]
    have : a - b = 0 := by omega
    rw [this, List.drop_zero]
  · have hd : l.drop b = [] := List.drop_eq_nil_of_le (by omega)
    simp [hd]

theorem splitGo_flatten (text : List Char) (maxSize : Nat) (hM : 0 < maxSize) :
    ∀ fuel startIndex, text.length - startIndex ≤ fuel →
      (splitGo text maxSize fuel startIndex).flatten = text.drop startIndex := by
  intro fuel
  induction fuel with
  | zero =>
    intro s hs
    have : text.drop s = [] := List.drop_eq_nil_of_le (by omega)
    simp [splitGo, this]
  | succ f ih =>
    intro s hs
    by_cases h1 : s < text.length
    · by_cases h2 : text.length ≤ s + maxSize
      · simp [splitGo, h1, h2, jsSubstringFrom]
      · have hlt : s + maxSize < text.length := by omega
        have hgt : s < splitStep text maxSize s := splitStep_gt text maxSize s hM
        have hle : splitStep text maxSize s ≤ text.length :=
          splitStep_le_length text maxSize s hlt
        simp only [splitGo, h1, if_true, h2, if_false, List.flatten_cons]
        rw [ih (splitStep text maxSize s) (by omega)]
        exact drop_take_append_drop text s (splitStep text maxSize s) (by omega)
    · have : text.drop s = [] := List.drop_eq_nil_of_le (by omega)
      simp [splitGo, h1, this]

/-- C1: for every text `T` and `maxSize M > 0`, concatenating in order all
chunks returned by `splitTextIntoChunks(T, M)` yields exactly `T`. -/
theorem splitTextIntoChunks_concat (text : List Char) (maxSize : Nat) (hM : 0 < maxSize) :
    (splitTextIntoChunks text maxSize).flatten = text := by
  unfold splitTextIntoChunks
  rw [splitGo_flatten text maxSize hM text.length 0 (by omega)]
  exact List.drop_zero text

theorem splitTextIntoChunks_concat_witness :
    0 < 3 ∧ (splitTextIntoChunks "ab\n\ncd. efg\nhi".data 3).flatten = "ab\n\ncd. efg\nhi".data :=
  ⟨by decide, splitTextIntoChunks_concat "ab\n\ncd. efg\nhi".data 3 (by decide)⟩

/-! ### Chunk length bound (claim C2)

The claimed bound `length ≤ maxSize` is violated: JS `lastIndexOf(pat,
endIndex)` also finds a boundary *starting at* `endIndex`, and the
boundary characters are appended to the chunk, so a chunk may have up to
`maxSize + 2` characters. -/

theorem splitTextIntoChunks_bound_cex :
    ¬ (∀ c ∈ splitTextIntoChunks "abc\n\nx".data 3, c.length ≤ 3) := by decide

theorem splitGo_length_le (text : List Char) (maxSize : Nat) (hM : 0 < maxSize) :
    ∀ fuel startIndex, ∀ c ∈ splitGo text maxSize fuel startIndex,
      c.length ≤ maxSize + 2 := by
  intro fuel
  induction fuel with
  | zero => intro s c hc; simp [splitGo] at hc
  | succ f ih =>
    intro s c hc
    by_cases h1 : s < text.length
    · by_cases h2 : text.length ≤ s + maxSize
      · simp [splitGo, h1, h2, jsSubstringFrom] at hc
        subst hc
        rw [List.length_drop]
        omega
      · simp only [splitGo, h1, if_true, h2, if_false, List.mem_cons] at hc
        rcases hc with hc | hc
        · subst hc
          have hle := splitStep_le_add_two text maxSize s
          rw [jsSubstring, List.length_drop, List.length_take]
          omega
        · exact ih (splitStep text maxSize s) c hc
    · simp [splitGo, h1] at hc

/-- C2 (amended): every chunk of `splitTextIntoChunks(T, M)` (`M > 0`) has
length at most `M + 2` — not `M`: a boundary found at or just before the
candidate end `cursor + M` is included in the chunk and may extend up to
two characters past it.  A hard cut still yields exactly `M` characters
(see `splitStep_boundary_priority`). -/
theorem splitTextIntoChunks_bound_amended (text : List Char) (maxSize : Nat)
    (hM : 0 < maxSize) :
    ∀ c ∈ splitTextIntoChunks text maxSize, c.length ≤ maxSize + 2 :=
  fun c hc => splitGo_length_le text maxSize hM text.length 0 c hc

theorem splitTextIntoChunks_bound_amended_witness :
    0 < 3 ∧ ∀ c ∈ splitTextIntoChunks "abc\n\nx".data 3, c.length ≤ 3 + 2 :=
  ⟨by decide, splitTextIntoChunks_bound_amended "abc\n\nx".data 3 (by decide)⟩

/-! ### Termination (claim C3) -/

theorem splitGo_fuel_congr (text : List Char) (maxSize : Nat) (hM : 0 < maxSize) :
    ∀ fuel₁ fuel₂ startIndex, text.length - startIndex ≤ fuel₁ →
      text.length - startIndex ≤ fuel₂ →
      splitGo text maxSize fuel₁ startIndex = splitGo text maxSize fuel₂ startIndex := by
  intro fuel₁
  induction fuel₁ with
  | zero =>
    intro fuel₂ s hs1 hs2
    have hns : ¬ s < text.length := by omega
    cases fuel₂ with
    | zero => rfl
    | succ f₂ => simp [splitGo, hns]
  | succ f₁ ih =>
    intro fuel₂ s hs1 hs2
    cases fuel₂ with
    | zero =>
      have hns : ¬ s < text.length := by omega
      simp [splitGo, hns]
    | succ f₂ =>
      by_cases h1 : s < text.length
      · by_cases h2 : text.length ≤ s + maxSize
        · simp [splitGo, h1, h2]
        · have hgt : s < splitStep text maxSize s := splitStep_gt text maxSize s hM
          simp only [splitGo, h1, if_true, h2, if_false]
          rw [ih f₂ (splitStep text maxSize s) (by omega) (by omega)]
      · simp [splitGo, h1]

/-- C3: `splitTextIntoChunks` terminates for `maxSize > 0`: the cursor
`startIndex` strictly increases on every loop iteration (first conjunct,
for every cursor position — in particular on texts made entirely of
repeated boundary characters), so the loop runs at most `text.length`
iterations: any fuel of at least `text.length` computes the same, already
stationary, result (second conjunct). -/
theorem splitTextIntoChunks_terminates (text : List Char) (maxSize : Nat) (hM : 0 < maxSize) :
    (∀ startIndex, startIndex < splitStep text maxSize startIndex) ∧
      ∀ fuel, text.length ≤ fuel →
        splitGo text maxSize fuel 0 = splitTextIntoChunks text maxSize := by
  constructor
  · exact fun s => splitStep_gt text maxSize s hM
  · intro fuel hf
    unfold splitTextIntoChunks
    exact splitGo_fuel_congr text maxSize hM fuel text.length 0 (by omega) (by omega)

theorem splitTextIntoChunks_terminates_witness :
    0 < 2 ∧ ((∀ startIndex, startIndex < splitStep "\n\n\n\n\n\n".data 2 startIndex) ∧
      ∀ fuel, ("\n\n\n\n\n\n".data : List Char).length ≤ fuel →
        splitGo "\n\n\n\n\n\n".data 2 fuel 0 = splitTextIntoChunks "\n\n\n\n\n\n".data 2) :=
  ⟨by decide, splitTextIntoChunks_terminates "\n\n\n\n\n\n".data 2 (by decide)⟩

/-! ### Boundary priority (claim C4) -/

/-- C4: on a non-final iteration (`cursor + M < |T|`) the split position is
chosen by priority: the best (largest, strictly after the cursor, at or
before the candidate end `cursor + M`) paragraph break, else the best
sentence break `". "`, else the best single line break, else a hard cut
exactly at the candidate end; the boundary characters are included in the
chunk, so the next cursor `splitStep` starts strictly after them. -/
theorem splitStep_boundary_priority (text : List Char) (maxSize startIndex : Nat)
    (h : startIndex + maxSize < text.length) :
    (∃ p, bestBoundaryIn text parBreak startIndex (startIndex + maxSize) p ∧
        splitStep text maxSize startIndex = p + 2) ∨
    (noBoundaryIn text parBreak startIndex (startIndex + maxSize) ∧
      ∃ p, bestBoundaryIn text dotSpace startIndex (startIndex + maxSize) p ∧
        splitStep text maxSize startIndex = p + 2) ∨
    (noBoundaryIn text parBreak startIndex (startIndex + maxSize) ∧
      noBoundaryIn text dotSpace startIndex (startIndex + maxSize) ∧
      ∃ p, bestBoundaryIn text oneBreak startIndex (startIndex + maxSize) p ∧
        splitStep text maxSize startIndex = p + 1) ∨
    (noBoundaryIn text parBreak startIndex (startIndex + maxSize) ∧
      noBoundaryIn text dotSpace startIndex (startIndex + maxSize) ∧
      noBoundaryIn text oneBreak startIndex (startIndex + maxSize) ∧
      splitStep text maxSize startIndex = startIndex + maxSize) := by
  unfold splitStep
  cases h1 : boundarySearch text parBreak (startIndex + maxSize) startIndex with
  | some p =>
    exact Or.inl ⟨p, boundarySearch_some _ _ _ _ _ h1, rfl⟩
  | none =>
    have hn1 := boundarySearch_none _ _ _ _ h1
    cases h2 : boundarySearch text dotSpace (startIndex + maxSize) startIndex with
    | some p =>
      exact Or.inr (Or.inl ⟨hn1, p, boundarySearch_some _ _ _ _ _ h2, rfl⟩)
    | none =>
      have hn2 := boundarySearch_none _ _ _ _ h2
      cases h3 : boundarySearch text oneBreak (startIndex + maxSize) startIndex with
      | some p =>
        exact Or.inr (Or.inr (Or.inl ⟨hn1, hn2, p, boundarySearch_some _ _ _ _ _ h3, rfl⟩))
      | none =>
        exact Or.inr (Or.inr (Or.inr ⟨hn1, hn2, boundarySearch_none _ _ _ _ h3, rfl⟩))

/-! ### Chunks are non-empty, and empty input gives no chunks (claim C10) -/

theorem splitGo_ne_nil (text : List Char) (maxSize : Nat) (hM : 0 < maxSize) :
    ∀ fuel startIndex, ∀ c ∈ splitGo text maxSize fuel startIndex, c ≠ [] := by
  intro fuel
  induction fuel with
  | zero => intro s c hc; simp [splitGo] at hc
  | succ f ih =>
    intro s c hc
    by_cases h1 : s < text.length
    · by_cases h2 : text.length ≤ s + maxSize
      · simp [splitGo, h1, h2, jsSubstringFrom] at hc
        subst hc
        intro hnil
        have := congrArg List.length hnil
        rw [List.length_drop] at this
        simp at this
        omega
      · simp only [splitGo, h1, if_true, h2, if_false, List.mem_cons] at hc
        rcases hc with hc | hc
        · subst hc
          have hgt : s < splitStep text maxSize s := splitStep_gt text maxSize s hM
          intro hnil
          have := congrArg List.length hnil
          rw [jsSubstring, List.length_drop, List.length_take] at this
          simp at this
          omega
        · exact ih (splitStep text maxSize s) c hc
    · simp [splitGo, h1] at hc

/-- C10: for `maxSize > 0` every chunk returned by `splitTextIntoChunks`
is non-empty, and the result is the empty list exactly when the input text
is empty. -/
theorem splitTextIntoChunks_nonempty (text : List Char) (maxSize : Nat) (hM : 0 < maxSize) :
    (∀ c ∈ splitTextIntoChunks text maxSize, c ≠ []) ∧
      (splitTextIntoChunks text maxSize = [] ↔ text = []) := by
  refine ⟨fun c hc => splitGo_ne_nil text maxSize hM text.length 0 c hc, ?_, ?_⟩
  · intro hnil
    by_contra hne
    have hlen : 0 < text.length := List.length_pos.mpr hne
    unfold splitTextIntoChunks at hnil
    obtain ⟨f, hf⟩ : ∃ f, text.length = f + 1 := ⟨text.length - 1, by omega⟩
    rw [hf] at hnil
    rw [splitGo] at hnil
    rw [if_pos (by omega : (0:Nat) < text.length)] at hnil
    split_ifs at hnil <;> simp at hnil
  · intro he
    subst he
    rfl

theorem splitTextIntoChunks_nonempty_witness :
    0 < 3 ∧ ((∀ c ∈ splitTextIntoChunks "ab\n\ncd".data 3, c ≠ []) ∧
      (splitTextIntoChunks "ab\n\ncd".data 3 = [] ↔ "ab\n\ncd".data = [])) :=
  ⟨by decide, splitTextIntoChunks_nonempty "ab\n\ncd".data 3 (by decide)⟩

/-! ### `adjustHtmlImagePaths` (`translateMd.js` lines 161-172)

The source applies the global, case-insensitive regex
`/<img([^>]+)src="([^"]+)"/gi` with a replacement callback.  We embed the
regex engine's behaviour on this pattern directly:

* a match at a position is `<img` (case-insensitive), then a non-empty
  run of non-`>` characters (group 1, greedy — the regex backtracks, so
  the *last* position admitting the rest of the pattern wins), then
  `src="` (case-insensitive), then a non-empty run of non-`"` characters
  (group 2), then a closing `"`;
* `String.replace` with a global regex rewrites the leftmost match, then
  continues scanning after it.

`findSrc0` implements the greedy/backtracking choice of group 1 by
preferring the deepest viable `src="` occurrence; `grabValue` implements
`([^"]+)"`.  The callback (lines 164-171) is `rewriteMatch`: matches
whose `src` starts with `http://`, `https://`, `data:` or `../en/` are
returned unchanged; otherwise the replacement template
`` `<img${attributes}src="${newSrc}"` `` is emitted, where `newSrc`
prefixes `../en` (for values starting with `/`) or `../en/`. -/

/-- Case-insensitive character comparison, as performed by the regex `i`
flag on the ASCII letters appearing in the pattern. -/
def ciEqc (a b : Char) : Bool := a.toLower == b.toLower

/-- `pat` is a case-insensitive prefix of the second argument. -/
def ciPrefix : List Char → List Char → Bool
  | [], _ => true
  | _ :: _, [] => false
  | p :: ps, c :: cs => ciEqc p c && ciPrefix ps cs

/-- The two lists have the same length and are case-insensitively equal. -/
def ciEqL : List Char → List Char → Bool
  | [], [] => true
  | a :: as, b :: bs => ciEqc a b && ciEqL as bs
  | _, _ => false

def imgTok : List Char := "<img".data

def srcTok : List Char := "src=\"".data

/-- `([^"]+)"` without the non-emptiness check: split `u` as
`S ++ '"' :: rest` where `S` is the (possibly empty) run of characters
before the first `"`; `none` when `u` has no `"` (the match fails and the
engine backtracks group 1). -/
def grabValue : List Char → Option (List Char × List Char)
  | [] => none
  | c :: cs =>
    if c = '"' then some ([], cs)
    else
      match grabValue cs with
      | some (S, rest) => some (c :: S, rest)
      | none => none

/-- The tail of a match anchored at the current position: `src="`
(case-insensitively, its original characters are returned) followed by a
non-empty quote-terminated value. -/
def grab0 (t : List Char) : Option (List Char × List Char × List Char) :=
  if ciPrefix srcTok t then
    match grabValue (t.drop 5) with
    | some (S, rest) => if S.isEmpty then none else some (t.take 5, S, rest)
    | none => none
  else none

/-- A successful match of the tail `([^>]+)src="([^"]+)"`:
`attrs` is group 1 (non-empty, no `>`), `srcq` the matched `src="`
characters in their original case, `value` group 2, `rest` the input
after the closing quote. -/
structure SrcMatch where
  attrs : List Char
  srcq : List Char
  value : List Char
  rest : List Char
deriving DecidableEq

/-- Backtracking search for `([^>]*)src="([^"]+)"` anchored at the head
of the input: the regex's greedy group tries the *deepest* (longest
group 1) viable `src="` first; a `>` stops the search.  (The caller
guarantees group 1 non-emptiness by prepending one character.) -/
def findSrc0 : List Char → Option SrcMatch
  | [] => none
  | c :: r =>
    match (if c = '>' then none
           else (findSrc0 r).map fun m => ⟨c :: m.attrs, m.srcq, m.value, m.rest⟩) with
    | some m => some m
    | none =>
      match grab0 (c :: r) with
      | some (sv, S, rest) => some ⟨[], sv, S, rest⟩
      | none => none

/-- A successful match of `/<img([^>]+)src="([^"]+)"/i` anchored at the
head of the input, keeping the original characters of the
case-insensitively matched fixed parts. -/
structure ImgMatch where
  imgTag : List Char
  attrs : List Char
  srcq : List Char
  value : List Char
  rest : List Char
deriving DecidableEq

/-- Try to match `/<img([^>]+)src="([^"]+)"/i` at the head of `s`. -/
def tryMatch (s : List Char) : Option ImgMatch :=
  if ciPrefix imgTok s then
    match s.drop 4 with
    | [] => none
    | c :: r =>
      if c = '>' then none
      else
        match findSrc0 r with
        | some m => some ⟨s.take 4, c :: m.attrs, m.srcq, m.value, m.rest⟩
        | none => none
  else none

/-- The guard of the replacement callback (`translateMd.js` line 165). -/
def protectedSrc (S : List Char) : Bool :=
  "http://".data.isPrefixOf S || "https://".data.isPrefixOf S ||
    "data:".data.isPrefixOf S || "../en/".data.isPrefixOf S

/-- `src.startsWith('/') ? `../en${src}` : `../en/${src}`` (line 169). -/
def newSrc (S : List Char) : List Char :=
  if S.head? = some '/' then "../en".data ++ S else "../en/".data ++ S

/-- The replacement callback (lines 164-171): protected sources return
the whole match unchanged, others are rebuilt from the template
`` `<img${attributes}src="${newSrc}"` `` (note: this normalizes the case
of the literal `<img` and `src="` parts). -/
def rewriteMatch (m : ImgMatch) : List Char :=
  if protectedSrc m.value then m.imgTag ++ m.attrs ++ m.srcq ++ m.value ++ ['"']
  else "<img".data ++ m.attrs ++ "src=\"".data ++ newSrc m.value ++ ['"']

/-- The global-replace scan: rewrite the leftmost match, continue after
it; characters not part of any match are copied.  Fuel-indexed (each
match consumes at least eleven characters and a non-match consumes one,
so fuel `s.length`, as supplied by `adjustHtmlImagePaths`, suffices). -/
def scanGo : Nat → List Char → List Char
  | 0, _ => []
  | _ + 1, [] => []
  | fuel + 1, c :: cs =>
    match tryMatch (c :: cs) with
    | some m => rewriteMatch m ++ scanGo fuel m.rest
    | none => c :: scanGo fuel cs

/-- `adjustHtmlImagePaths(htmlContent)` (`translateMd.js` lines 161-172). -/
def adjustHtmlImagePaths (htmlContent : List Char) : List Char :=
  scanGo htmlContent.length htmlContent

example :
    adjustHtmlImagePaths "<p><img class=\"x\" src=\"a/b.png\"></p>".data =
      "<p><img class=\"x\" src=\"../en/a/b.png\"></p>".data := by decide

example :
    adjustHtmlImagePaths "<img a src=\"http://x/y.png\">".data =
      "<img a src=\"http://x/y.png\">".data := by decide

example :
    adjustHtmlImagePaths "<img a src=\"/y.png\">".data =
      "<img a src=\"../en/y.png\">".data := by decide

example :
    adjustHtmlImagePaths "<IMG a SRC=\"y.png\">".data =
      "<img a src=\"../en/y.png\">".data := by decide

/-! ### The per-language task (`translateMd.js` lines 252-316)

One `LanguageTask` is the closure `task` built for a `(document,
language)` pair.  Its effects are captured by `TaskResult`: the final
state, the number of `translateText` calls it performed, and the file
content it wrote (`none` when it wrote nothing).  The translation client
is an oracle `tr : List Char → Except Unit (List Char)` (a failed API
call throws; the `catch` at line 311 turns that into the failed state
without writing).  `fs.copyFile` for the source language writes the
source text verbatim. -/

inductive Outcome
  | skippedExists
  | skippedNoTranslate
  | copied
  | written
  | failed
deriving DecidableEq

/-- A `(langCode, instructions)` entry of `translationformats.json`. -/
structure TaskCfg where
  langCode : List Char
  instructions : List Char
deriving DecidableEq

structure TaskResult where
  outcome : Outcome
  calls : Nat
  output : Option (List Char)
deriving DecidableEq

/-- JS `instructions.toLowerCase()` (restricted to the ASCII mapping,
which is all the sentinel comparison can hit). -/
def toLowerList (s : List Char) : List Char := s.map Char.toLower

def dontTranslate : List Char := "don't translate".data

def enCode : List Char := "en".data

/-- The sequential chunk loop (lines 288-294): translate chunks in order,
stopping at the first failure.  Returns the translated chunks (`none`
after a failure) and the number of `translateText` calls performed. -/
def translateChunks (tr : List Char → Except Unit (List Char)) :
    List (List Char) → Option (List (List Char)) × Nat
  | [] => (some [], 0)
  | c :: cs =>
    match tr c with
    | Except.error _ => (none, 1)
    | Except.ok t =>
      match translateChunks tr cs with
      | (some ts, n) => (some (t :: ts), n + 1)
      | (none, n) => (none, n + 1)

/-- `translatedChunks.join('\n\n')` (line 295). -/
def nlJoin : List Char := ['\n', '\n']

/-- Lines 282-300: produce `finalTranslation` — chunked for large files
(`isLargeFile = sourceText.length > LARGE_FILE_THRESHOLD`, line 248),
a single whole-document request otherwise; `none` with the number of
calls made when a request threw. -/
def translateDoc (tr : List Char → Except Unit (List Char)) (sourceText : List Char) :
    Option (List Char) × Nat :=
  if LARGE_FILE_THRESHOLD < sourceText.length then
    match translateChunks tr (splitTextIntoChunks sourceText CHUNK_SIZE) with
    | (some ts, n) => (some (List.intercalate nlJoin ts), n)
    | (none, n) => (none, n)
  else
    match tr sourceText with
    | Except.ok t => (some t, 1)
    | Except.error _ => (none, 1)

/-- The body of `task` (lines 257-314) for one language: existence check,
sentinel check, source-language copy, then chunked or whole-document
translation, optional image-path adjustment for HTML, and the write.
`destExists` is the `fs.access(outputFilePath)` probe. -/
def runTask (tr : List Char → Except Unit (List Char)) (destExists : Bool)
    (cfg : TaskCfg) (sourceText : List Char) (isHtml : Bool) : TaskResult :=
  if destExists then ⟨Outcome.skippedExists, 0, none⟩
  else if toLowerList cfg.instructions = dontTranslate then
    ⟨Outcome.skippedNoTranslate, 0, none⟩
  else if cfg.langCode = enCode then ⟨Outcome.copied, 0, some sourceText⟩
  else
    match translateDoc tr sourceText with
    | (some t, n) =>
      ⟨Outcome.written, n,
        some (if isHtml ∧ cfg.langCode ≠ enCode then adjustHtmlImagePaths t else t)⟩
    | (none, n) => ⟨Outcome.failed, n, none⟩

/-- One orchestrator pass over a document's language list (lines
252-316): each language's task checks the file system as it starts and
performs its work independently (each task reads and writes only its own
`translated/<langCode>/<name>` path).  `fsv` is the set of language codes
whose destination file already exists, as a list. -/
def runDoc (tr : List Char → List Char → Except Unit (List Char))
    (fsv : List (List Char)) (cfgs : List TaskCfg) (sourceText : List Char)
    (isHtml : Bool) : List TaskResult :=
  cfgs.map fun cfg => runTask (tr cfg.langCode) (fsv.contains cfg.langCode) cfg sourceText isHtml

/-- The destination files existing after a pass: those that existed
before plus one per task that wrote its output. -/
def fsAfter (tr : List Char → List Char → Except Unit (List Char))
    (fsv : List (List Char)) (cfgs : List TaskCfg) (sourceText : List Char)
    (isHtml : Bool) : List (List Char) :=
  fsv ++ cfgs.filterMap fun cfg =>
    if (runTask (tr cfg.langCode) (fsv.contains cfg.langCode) cfg sourceText isHtml).output.isSome
    then some cfg.langCode else none

/-! ### The batch scheduler (`translateMd.js` lines 319-327) -/

/-- The loop body of lines 321-327, fuel-indexed: each step takes one
batch of `limit` tasks off the front.  Each step consumes at least one
task, so fuel `tasks.length` (as supplied by `batches`) always
suffices. -/
def batchesGo {α : Type} (limit : Nat) : Nat → List α → List (List α)
  | 0, _ => []
  | _ + 1, [] => []
  | fuel + 1, t :: ts => (t :: ts.take (limit - 1)) :: batchesGo limit fuel (ts.drop (limit - 1))

/-- The batches formed by `for (let i = 0; i < n; i += CONCURRENCY_LIMIT)
{ const batch = tasks.slice(i, i + CONCURRENCY_LIMIT); ... }`:
consecutive groups of `limit` tasks (the last possibly smaller).  The JS
loop diverges for a zero limit, so the model is meaningful only for
`0 < limit`, which every theorem below assumes. -/
def batches {α : Type} (limit : Nat) (tasks : List α) : List (List α) :=
  batchesGo limit tasks.length tasks

/-- `Promise.allSettled` over one batch: every member runs; failures are
captured as values, never propagated. -/
def allSettled {α β ε : Type} (f : α → Except ε β) (batch : List α) : List (Except ε β) :=
  batch.map f

/-- The whole scheduler loop: run the batches in order, waiting for each
batch to settle before starting the next, and collect every outcome. -/
def runScheduler {α β ε : Type} (f : α → Except ε β) (limit : Nat) (tasks : List α) :
    List (Except ε β) :=
  ((batches limit tasks).map (allSettled f)).flatten

/-- Execution trace of the scheduler: for each batch, first all its
members start (the `batch.map(task => task())` calls), then all its
members settle (the `await Promise.allSettled` barrier); the next batch's
events all come after. -/
inductive SchedEvent (α : Type)
  | start (batchIdx : Nat) (t : α)
  | settle (batchIdx : Nat) (t : α)
deriving DecidableEq

def batchIdxOf {α : Type} : SchedEvent α → Nat
  | SchedEvent.start i _ => i
  | SchedEvent.settle i _ => i

def isStart {α : Type} : SchedEvent α → Bool
  | SchedEvent.start _ _ => true
  | SchedEvent.settle _ _ => false

def batchTrace {α : Type} (i : Nat) (b : List α) : List (SchedEvent α) :=
  b.map (SchedEvent.start i) ++ b.map (SchedEvent.settle i)

def schedTraceGo {α : Type} (i : Nat) : List (List α) → List (SchedEvent α)
  | [] => []
  | b :: bs => batchTrace i b ++ schedTraceGo (i + 1) bs

def schedTrace {α : Type} (limit : Nat) (tasks : List α) : List (SchedEvent α) :=
  schedTraceGo 0 (batches limit tasks)

/-- Number of tasks in flight after a list of events. -/
def startCount {α : Type} (es : List (SchedEvent α)) : Nat :=
  (es.filter isStart).length

def settleCount {α : Type} (es : List (SchedEvent α)) : Nat :=
  (es.filter fun e => !isStart e).length

example : batches 2 [1, 2, 3, 4, 5] = [[1, 2], [3, 4], [5]] := by decide

example : runScheduler (fun n => if n = 3 then Except.error "f" else Except.ok (n + 1)) 2
    [1, 2, 3, 4, 5] =
    [Except.ok 2, Except.ok 3, Except.error "f", Except.ok 5, Except.ok 6] := by rfl

/-! ### Scheduler properties (claim C7) -/

theorem batchesGo_flatten {α : Type} (limit : Nat) (hK : 0 < limit) :
    ∀ fuel (tasks : List α), tasks.length ≤ fuel →
      (batchesGo limit fuel tasks).flatten = tasks := by
  intro fuel
  induction fuel with
  | zero =>
    intro tasks h
    have : tasks = [] := List.eq_nil_of_length_eq_zero (by omega)
    simp [this, batchesGo]
  | succ f ih =>
    intro tasks h
    cases tasks with
    | nil => simp [batchesGo]
    | cons t ts =>
      simp only [batchesGo, List.flatten_cons]
      rw [ih (ts.drop (limit - 1)) (by simp [List.length_drop]; simp at h; omega)]
      simp [List.take_append_drop]

theorem batchesGo_mem {α : Type} (limit : Nat) (hK : 0 < limit) :
    ∀ fuel (tasks : List α), ∀ b ∈ batchesGo limit fuel tasks,
      b ≠ [] ∧ b.length ≤ limit := by
  intro fuel
  induction fuel with
  | zero => intro tasks b hb; simp [batchesGo] at hb
  | succ f ih =>
    intro tasks b hb
    cases tasks with
    | nil => simp [batchesGo] at hb
    | cons t ts =>
      simp only [batchesGo, List.mem_cons] at hb
      rcases hb with hb | hb
      · subst hb
        refine ⟨by simp, ?_⟩
        simp only [List.length_cons, List.length_take]
        omega
      · exact ih (ts.drop (limit - 1)) b hb

theorem prefix_append_cases {α : Type} (p a c : List α) (h : p <+: a ++ c) :
    p <+: a ∨ ∃ q, p = a ++ q ∧ q <+: c := by
  induction a generalizing p with
  | nil => exact Or.inr ⟨p, by simpa using h⟩
  | cons x a' ih =>
    cases p with
    | nil => exact Or.inl (List.nil_prefix)
    | cons y p' =>
      rw [List.cons_append, List.cons_prefix_cons] at h
      obtain ⟨rfl, h'⟩ := h
      rcases ih p' h' with h1 | ⟨q, rfl, hq⟩
      · exact Or.inl (List.cons_prefix_cons.mpr ⟨rfl, h1⟩)
      · exact Or.inr ⟨q, by simp, hq⟩

theorem startCount_append {α : Type} (a b : List (SchedEvent α)) :
    startCount (a ++ b) = startCount a + startCount b := by
  simp [startCount, List.filter_append]

theorem settleCount_append {α : Type} (a b : List (SchedEvent α)) :
    settleCount (a ++ b) = settleCount a + settleCount b := by
  simp [settleCount, List.filter_append]

theorem counts_of_all_starts {α : Type} (p : List (SchedEvent α))
    (h : ∀ e ∈ p, isStart e = true) :
    startCount p = p.length ∧ settleCount p = 0 := by
  constructor
  · simp [startCount, List.filter_eq_self.mpr h]
  · simp only [settleCount, List.length_eq_zero]
    rw [List.filter_eq_nil]
    intro e he
    simp [h e he]

theorem counts_of_all_settles {α : Type} (p : List (SchedEvent α))
    (h : ∀ e ∈ p, isStart e = false) :
    startCount p = 0 ∧ settleCount p = p.length := by
  constructor
  · simp only [startCount, List.length_eq_zero]
    rw [List.filter_eq_nil_iff]
    intro e he
    simp [h e he]
  · have hb : ∀ e ∈ p, (!isStart e) = true := by
      intro e he
      simp [h e he]
    simp [settleCount, List.filter_eq_self.mpr hb]

theorem batchTrace_prefix_bound {α : Type} (limit i : Nat) (b : List α)
    (hb : b.length ≤ limit) (p : List (SchedEvent α)) (hp : p <+: batchTrace i b) :
    settleCount p ≤ startCount p ∧ startCount p ≤ settleCount p + limit := by
  rcases prefix_append_cases p (b.map (SchedEvent.start i)) (b.map (SchedEvent.settle i)) hp
    with h1 | ⟨q, rfl, hq⟩
  · have hall : ∀ e ∈ p, isStart e = true := by
      intro e he
      have := h1.subset he
      simp only [List.mem_map] at this
      obtain ⟨x, _, rfl⟩ := this
      rfl
    obtain ⟨hs, ht⟩ := counts_of_all_starts p hall
    have := h1.length_le
    simp only [List.length_map] at this
    omega
  · have hall1 : ∀ e ∈ (b.map (SchedEvent.start i)), isStart e = true := by
      intro e he
      simp only [List.mem_map] at he
      obtain ⟨x, _, rfl⟩ := he
      rfl
    have hall2 : ∀ e ∈ q, isStart e = false := by
      intro e he
      have := hq.subset he
      simp only [List.mem_map] at this
      obtain ⟨x, _, rfl⟩ := this
      rfl
    obtain ⟨hs1, ht1⟩ := counts_of_all_starts _ hall1
    obtain ⟨hs2, ht2⟩ := counts_of_all_settles q hall2
    have hlq := hq.length_le
    simp only [List.length_map] at hlq hs1
    rw [startCount_append, settleCount_append]
    omega

theorem batchTrace_counts {α : Type} (i : Nat) (b : List α) :
    startCount (batchTrace i b) = b.length ∧ settleCount (batchTrace i b) = b.length := by
  have hall1 : ∀ e ∈ (b.map (SchedEvent.start i)), isStart e = true := by
    intro e he
    simp only [List.mem_map] at he
    obtain ⟨x, _, rfl⟩ := he
    rfl
  have hall2 : ∀ e ∈ (b.map (SchedEvent.settle i)), isStart e = false := by
    intro e he
    simp only [List.mem_map] at he
    obtain ⟨x, _, rfl⟩ := he
    rfl
  obtain ⟨hs1, ht1⟩ := counts_of_all_starts _ hall1
  obtain ⟨hs2, ht2⟩ := counts_of_all_settles _ hall2
  unfold batchTrace
  rw [startCount_append, settleCount_append]
  simp only [List.length_map] at hs1 ht2
  omega

theorem schedTraceGo_prefix_bound {α : Type} (limit : Nat) :
    ∀ (bs : List (List α)) (i : Nat), (∀ b ∈ bs, b.length ≤ limit) →
      ∀ p, p <+: schedTraceGo i bs →
        settleCount p ≤ startCount p ∧ startCount p ≤ settleCount p + limit := by
  intro bs
  induction bs with
  | nil =>
    intro i _ p hp
    simp only [schedTraceGo, List.prefix_nil] at hp
    subst hp
    simp [startCount, settleCount]
  | cons b bs ih =>
    intro i hmem p hp
    simp only [schedTraceGo] at hp
    rcases prefix_append_cases p (batchTrace i b) (schedTraceGo (i + 1) bs) hp
      with h1 | ⟨q, rfl, hq⟩
    · exact batchTrace_prefix_bound limit i b (hmem b (by simp)) p h1
    · obtain ⟨hs, ht⟩ := batchTrace_counts i b
      obtain ⟨h1, h2⟩ := ih (i + 1) (fun x hx => hmem x (by simp [hx])) q hq
      rw [startCount_append, settleCount_append]
      omega

theorem mem_batchTrace_idx {α : Type} (i : Nat) (b : List α) (e : SchedEvent α)
    (he : e ∈ batchTrace i b) : batchIdxOf e = i := by
  simp only [batchTrace, List.mem_append, List.mem_map] at he
  rcases he with ⟨x, _, rfl⟩ | ⟨x, _, rfl⟩ <;> rfl

theorem mem_schedTraceGo_idx {α : Type} :
    ∀ (bs : List (List α)) (i : Nat) (e : SchedEvent α),
      e ∈ schedTraceGo i bs → i ≤ batchIdxOf e := by
  intro bs
  induction bs with
  | nil => intro i e he; simp [schedTraceGo] at he
  | cons b bs ih =>
    intro i e he
    simp only [schedTraceGo, List.mem_append] at he
    rcases he with he | he
    · rw [mem_batchTrace_idx i b e he]
    · have := ih (i + 1) e he
      omega

theorem schedTraceGo_idx_mono {α : Type} :
    ∀ (bs : List (List α)) (i : Nat),
      List.Pairwise (fun e₁ e₂ => batchIdxOf e₁ ≤ batchIdxOf e₂) (schedTraceGo i bs) := by
  intro bs
  induction bs with
  | nil => intro i; simp [schedTraceGo]
  | cons b bs ih =>
    intro i
    simp only [schedTraceGo]
    rw [List.pairwise_append]
    refine ⟨?_, ih (i + 1), ?_⟩
    · rw [List.pairwise_iff_forall_sublist]
      intro e₁ e₂ hsub
      have h1 : e₁ ∈ batchTrace i b := hsub.subset (by simp)
      have h2 : e₂ ∈ batchTrace i b := hsub.subset (by simp)
      rw [mem_batchTrace_idx i b e₁ h1, mem_batchTrace_idx i b e₂ h2]
    · intro e₁ h1 e₂ h2
      rw [mem_batchTrace_idx i b e₁ h1]
      have := mem_schedTraceGo_idx bs (i + 1) e₂ h2
      omega

/-- C7: for every task list and limit `K > 0` the scheduler (lines
319-327) (a) partitions the tasks into consecutive non-empty groups of at
most `K`, preserving input order; (b) produces one outcome per task —
exactly the task's own result, so all `N` tasks execute and one failure
neither cancels nor blocks any other task; (c) its trace keeps at most
`K` tasks in flight at any instant (and never settles more than it has
started); (d) batch indices are non-decreasing along the trace: every
event of a batch (in particular every start) comes after all events (in
particular all settles) of every earlier batch. -/
theorem scheduler_bounded_batches {α β ε : Type} (f : α → Except ε β) (limit : Nat)
    (tasks : List α) (hK : 0 < limit) :
    (batches limit tasks).flatten = tasks ∧
      (∀ b ∈ batches limit tasks, b ≠ [] ∧ b.length ≤ limit) ∧
      runScheduler f limit tasks = tasks.map f ∧
      (∀ p, p <+: schedTrace limit tasks →
        settleCount p ≤ startCount p ∧ startCount p ≤ settleCount p + limit) ∧
      List.Pairwise (fun e₁ e₂ => batchIdxOf e₁ ≤ batchIdxOf e₂)
        (schedTrace limit tasks) := by
  have hflat : (batches limit tasks).flatten = tasks :=
    batchesGo_flatten limit hK tasks.length tasks (le_refl _)
  have hmem := batchesGo_mem limit hK tasks.length tasks
  refine ⟨hflat, hmem, ?_, ?_, ?_⟩
  · unfold runScheduler allSettled
    rw [← List.map_flatten, hflat]
  · intro p hp
    exact schedTraceGo_prefix_bound limit (batches limit tasks) 0
      (fun b hb => (hmem b hb).2) p hp
  · exact schedTraceGo_idx_mono (batches limit tasks) 0

theorem scheduler_bounded_batches_witness :
    0 < 2 ∧
      ((batches 2 [10, 11, 12, 13, 14]).flatten = [10, 11, 12, 13, 14] ∧
        (∀ b ∈ batches 2 [10, 11, 12, 13, 14], b ≠ [] ∧ b.length ≤ 2) ∧
        runScheduler (fun n => if n = 12 then Except.error () else Except.ok n) 2
            [10, 11, 12, 13, 14] =
          [10, 11, 12, 13, 14].map (fun n => if n = 12 then Except.error () else Except.ok n) ∧
        (∀ p, p <+: schedTrace 2 [10, 11, 12, 13, 14] →
          settleCount p ≤ startCount p ∧ startCount p ≤ settleCount p + 2) ∧
        List.Pairwise (fun e₁ e₂ => batchIdxOf e₁ ≤ batchIdxOf e₂)
          (schedTrace 2 [10, 11, 12, 13, 14])) :=
  ⟨by decide,
    scheduler_bounded_batches (fun n => if n = 12 then Except.error () else Except.ok n) 2
      [10, 11, 12, 13, 14] (by decide)⟩

/-! ### The "don't translate" sentinel (claim C8) -/

/-- C8: a task whose configured instruction equals `"don't translate"`
case-insensitively (lines 270-273) performs no translation call and
writes no output — whether it is reached (after a negative existence
check) or pre-empted by the existence check, which also calls and writes
nothing. -/
theorem runTask_sentinel_no_call_no_write (tr : List Char → Except Unit (List Char))
    (destExists : Bool) (cfg : TaskCfg) (sourceText : List Char) (isHtml : Bool)
    (hs : toLowerList cfg.instructions = dontTranslate) :
    (runTask tr destExists cfg sourceText isHtml).calls = 0 ∧
      (runTask tr destExists cfg sourceText isHtml).output = none := by
  cases destExists with
  | false => simp [runTask, hs]
  | true => simp [runTask]

theorem runTask_sentinel_no_call_no_write_witness :
    toLowerList ("DON'T Translate".data) = dontTranslate ∧
      ((runTask (fun _ => Except.ok "T".data) false ⟨"de".data, "DON'T Translate".data⟩
          "hello".data false).calls = 0 ∧
        (runTask (fun _ => Except.ok "T".data) false ⟨"de".data, "DON'T Translate".data⟩
          "hello".data false).output = none) :=
  ⟨by decide,
    runTask_sentinel_no_call_no_write (fun _ => Except.ok "T".data) false
      ⟨"de".data, "DON'T Translate".data⟩ "hello".data false (by decide)⟩

/-! ### Failure isolation (claim C6) -/

/-- C6: (1) a failed task writes nothing; (2) a whole-document request
error makes the task fail with no write; (3) a chunk-loop failure (any
chunk request erroring) makes the task fail with no write — the write at
line 308 runs only after every chunk of the loop at lines 290-294
succeeded; (4) the result of the `j`-th language task depends only on its
own translator behaviour: perturbing the translator for every other
language leaves it unchanged (each task is an independent entry of
`runDoc`, mirroring the per-task `try/catch` at lines 258-313 and
`Promise.allSettled`). -/
theorem translation_failure_no_write :
    (∀ (tr : List Char → Except Unit (List Char)) (destExists : Bool) (cfg : TaskCfg)
        (sourceText : List Char) (isHtml : Bool),
        (runTask tr destExists cfg sourceText isHtml).outcome = Outcome.failed →
          (runTask tr destExists cfg sourceText isHtml).output = none) ∧
    (∀ (tr : List Char → Except Unit (List Char)) (cfg : TaskCfg)
        (sourceText : List Char) (isHtml : Bool),
        toLowerList cfg.instructions ≠ dontTranslate → cfg.langCode ≠ enCode →
        sourceText.length ≤ LARGE_FILE_THRESHOLD → tr sourceText = Except.error () →
          runTask tr false cfg sourceText isHtml = ⟨Outcome.failed, 1, none⟩) ∧
    (∀ (tr : List Char → Except Unit (List Char)) (cfg : TaskCfg)
        (sourceText : List Char) (isHtml : Bool) (n : Nat),
        toLowerList cfg.instructions ≠ dontTranslate → cfg.langCode ≠ enCode →
        LARGE_FILE_THRESHOLD < sourceText.length →
        translateChunks tr (splitTextIntoChunks sourceText CHUNK_SIZE) = (none, n) →
          runTask tr false cfg sourceText isHtml = ⟨Outcome.failed, n, none⟩) ∧
    (∀ (tr tr' : List Char → List Char → Except Unit (List Char))
        (fsv : List (List Char)) (cfgs : List TaskCfg) (sourceText : List Char)
        (isHtml : Bool) (j : Nat) (cfg : TaskCfg),
        cfgs.get? j = some cfg → tr cfg.langCode = tr' cfg.langCode →
          (runDoc tr fsv cfgs sourceText isHtml).get? j =
            (runDoc tr' fsv cfgs sourceText isHtml).get? j) := by
  refine ⟨?_, ?_, ?_, ?_⟩
  · intro tr destExists cfg sourceText isHtml
    unfold runTask
    rcases hd : translateDoc tr sourceText with ⟨o, n⟩
    rcases o with _ | t
    · split_ifs <;> simp
    · split_ifs <;> simp
  · intro tr cfg sourceText isHtml h1 h2 h3 h4
    have hd : translateDoc tr sourceText = (none, 1) := by
      unfold translateDoc
      rw [if_neg (by omega), h4]
    simp [runTask, h1, h2, hd]
  · intro tr cfg sourceText isHtml n h1 h2 h3 h4
    have hd : translateDoc tr sourceText = (none, n) := by
      unfold translateDoc
      rw [if_pos h3, h4]
    simp [runTask, h1, h2, hd]
  · intro tr tr' fsv cfgs sourceText isHtml j cfg hj htr
    unfold runDoc
    rw [List.get?_map, List.get?_map, hj]
    simp [htr]

theorem translation_failure_no_write_witness :
    toLowerList "formal".data ≠ dontTranslate ∧ ("de".data : List Char) ≠ enCode ∧
      ("hello".data : List Char).length ≤ LARGE_FILE_THRESHOLD ∧
      (fun _ => (Except.error () : Except Unit (List Char))) "hello".data = Except.error () ∧
      runTask (fun _ => Except.error ()) false ⟨"de".data, "formal".data⟩ "hello".data false =
        ⟨Outcome.failed, 1, none⟩ :=
  ⟨by decide, by decide, by decide, rfl,
    translation_failure_no_write.2.1 (fun _ => Except.error ()) ⟨"de".data, "formal".data⟩
      "hello".data false (by decide) (by decide) (by decide) rfl⟩

/-! ### Resumability (claim C5)

The claim fails on the code in two ways, both exercised by the concrete
input below: (a) a task whose translation failed in the first run wrote
no file, so the second run retries it and performs translation calls;
(b) a "don't translate" task writes no file either, so on the second run
it resolves to `SkippedNoTranslate` (lines 270-273) — never
`SkippedExists` — because the existence probe (lines 262-268) fails for
it.  The amended statement (`resumability_amended`) assumes the first run
had no failed task. -/

def cexTr : List Char → List Char → Except Unit (List Char) := fun _ _ => Except.error ()

def cexCfgs : List TaskCfg :=
  [⟨"de".data, "don't translate".data⟩, ⟨"fr".data, "formal".data⟩]

theorem resumability_cex :
    ¬ (∀ r ∈ runDoc cexTr
          (fsAfter cexTr [] cexCfgs "hello".data false) cexCfgs "hello".data false,
        r.calls = 0 ∧ r.outcome = Outcome.skippedExists) := by decide

/-- C5 (amended): if in the first run no task failed (every task either
found its file, was suppressed by the sentinel, copied, or wrote its
translation), then a second run over the outputs of the first — with any
translator — performs zero translation calls and writes nothing: each
task whose destination now exists resolves to `SkippedExists`, and each
remaining task carries the "don't translate" sentinel and resolves to
`SkippedNoTranslate` again. -/
theorem resumability_amended (tr tr' : List Char → List Char → Except Unit (List Char))
    (fsv : List (List Char)) (cfgs : List TaskCfg) (sourceText : List Char) (isHtml : Bool)
    (hok : ∀ r ∈ runDoc tr fsv cfgs sourceText isHtml, r.outcome ≠ Outcome.failed) :
    ∀ (j : Nat) (cfg : TaskCfg), cfgs.get? j = some cfg →
      if (fsAfter tr fsv cfgs sourceText isHtml).contains cfg.langCode then
        (runDoc tr' (fsAfter tr fsv cfgs sourceText isHtml) cfgs sourceText isHtml).get? j =
          some ⟨Outcome.skippedExists, 0, none⟩
      else
        toLowerList cfg.instructions = dontTranslate ∧
          (runDoc tr' (fsAfter tr fsv cfgs sourceText isHtml) cfgs sourceText isHtml).get? j =
            some ⟨Outcome.skippedNoTranslate, 0, none⟩ := by
  intro j cfg hj
  have hget : (runDoc tr' (fsAfter tr fsv cfgs sourceText isHtml) cfgs sourceText isHtml).get? j
      = some (runTask (tr' cfg.langCode)
          ((fsAfter tr fsv cfgs sourceText isHtml).contains cfg.langCode) cfg sourceText
          isHtml) := by
    unfold runDoc
    rw [List.get?_map, hj]
    rfl
  by_cases hc : (fsAfter tr fsv cfgs sourceText isHtml).contains cfg.langCode = true
  · rw [if_pos hc, hget, hc]
    rfl
  · rw [if_neg hc]
    have hnotmem : cfg.langCode ∉ fsAfter tr fsv cfgs sourceText isHtml :=
      fun hm => hc (List.elem_iff.mpr hm)
    have hsent : toLowerList cfg.instructions = dontTranslate := by
      by_contra hns
      have hmemcfg : cfg ∈ cfgs := List.get?_mem hj
      have hfsv : fsv.contains cfg.langCode = false := by
        rw [Bool.eq_false_iff]
        intro hfv
        exact hnotmem (List.mem_append_left _ (List.elem_iff.mp hfv))
      have hr1 : runTask (tr cfg.langCode) false cfg sourceText isHtml ∈
          runDoc tr fsv cfgs sourceText isHtml := by
        unfold runDoc
        rw [← hfsv]
        exact List.mem_map_of_mem _ hmemcfg
      have hnf := hok _ hr1
      have hwrote : (runTask (tr cfg.langCode) false cfg sourceText isHtml).output.isSome := by
        unfold runTask at hnf ⊢
        rw [if_neg (by simp), if_neg hns]
        rw [if_neg (by simp), if_neg hns] at hnf
        by_cases hen : cfg.langCode = enCode
        · rw [if_pos hen]
          rfl
        · rw [if_neg hen] at hnf ⊢
          rcases hd : translateDoc (tr cfg.langCode) sourceText with ⟨o, n⟩
          rcases o with _ | t
          · rw [hd] at hnf
            simp at hnf
          · simp
      refine hnotmem ?_
      unfold fsAfter
      refine List.mem_append_right _ ?_
      rw [List.mem_filterMap]
      refine ⟨cfg, hmemcfg, ?_⟩
      rw [hfsv]
      rw [if_pos hwrote]
    refine ⟨hsent, ?_⟩
    have hcf : (fsAfter tr fsv cfgs sourceText isHtml).contains cfg.langCode = false :=
      Bool.eq_false_iff.mpr (fun hfv => hnotmem (List.elem_iff.mp hfv))
    rw [hget, hcf]
    simp [runTask, hsent]

theorem resumability_amended_witness :
    (∀ r ∈ runDoc (fun _ _ => Except.ok "T".data) [] cexCfgs "hello".data false,
        r.outcome ≠ Outcome.failed) ∧
      (∀ (j : Nat) (cfg : TaskCfg), cexCfgs.get? j = some cfg →
        if (fsAfter (fun _ _ => Except.ok "T".data) [] cexCfgs "hello".data
              false).contains cfg.langCode then
          (runDoc (fun _ _ => Except.ok "T".data)
              (fsAfter (fun _ _ => Except.ok "T".data) [] cexCfgs "hello".data false)
              cexCfgs "hello".data false).get? j = some ⟨Outcome.skippedExists, 0, none⟩
        else
          toLowerList cfg.instructions = dontTranslate ∧
            (runDoc (fun _ _ => Except.ok "T".data)
                (fsAfter (fun _ _ => Except.ok "T".data) [] cexCfgs "hello".data false)
                cexCfgs "hello".data false).get? j =
              some ⟨Outcome.skippedNoTranslate, 0, none⟩) :=
  ⟨by decide,
    resumability_amended (fun _ _ => Except.ok "T".data) (fun _ _ => Except.ok "T".data) []
      cexCfgs "hello".data false (by decide)⟩

theorem splitStep_boundary_priority_witness :
    0 + 3 < ("ab\n\ncdef".data : List Char).length ∧
      ((∃ p, bestBoundaryIn "ab\n\ncdef".data parBreak 0 (0 + 3) p ∧
          splitStep "ab\n\ncdef".data 3 0 = p + 2) ∨
        (noBoundaryIn "ab\n\ncdef".data parBreak 0 (0 + 3) ∧
          ∃ p, bestBoundaryIn "ab\n\ncdef".data dotSpace 0 (0 + 3) p ∧
            splitStep "ab\n\ncdef".data 3 0 = p + 2) ∨
        (noBoundaryIn "ab\n\ncdef".data parBreak 0 (0 + 3) ∧
          noBoundaryIn "ab\n\ncdef".data dotSpace 0 (0 + 3) ∧
          ∃ p, bestBoundaryIn "ab\n\ncdef".data oneBreak 0 (0 + 3) p ∧
            splitStep "ab\n\ncdef".data 3 0 = p + 1) ∨
        (noBoundaryIn "ab\n\ncdef".data parBreak 0 (0 + 3) ∧
          noBoundaryIn "ab\n\ncdef".data dotSpace 0 (0 + 3) ∧
          noBoundaryIn "ab\n\ncdef".data oneBreak 0 (0 + 3) ∧
          splitStep "ab\n\ncdef".data 3 0 = 0 + 3)) :=
  ⟨by decide, splitStep_boundary_priority "ab\n\ncdef".data 3 0 (by decide)⟩

/-! ### Case-insensitivity groundwork for the rewrite proofs -/

theorem ciEqc_iff (a b : Char) : ciEqc a b = true ↔ a.toLower = b.toLower := by
  simp [ciEqc]

theorem ciEqc_refl (a : Char) : ciEqc a a = true := by
  simp [ciEqc]

theorem ciEqc_symm (a b : Char) (h : ciEqc a b = true) : ciEqc b a = true := by
  rw [ciEqc_iff] at h ⊢
  exact h.symm

theorem ciEqc_trans (a b c : Char) (h1 : ciEqc a b = true) (h2 : ciEqc b c = true) :
    ciEqc a c = true := by
  rw [ciEqc_iff] at h1 h2 ⊢
  exact h1.trans h2

/-- `Char.toLower` can only move basic latin uppercase letters into
`[97, 122]`; equality with anything below `'a'` forces equality. -/
theorem toLower_eq_of_lt (c l : Char) (hl : l.toNat < 97) (h : c.toLower = l) : c = l := by
  unfold Char.toLower at h
  simp only [] at h
  by_cases hc : c.toNat ≥ 65 ∧ c.toNat ≤ 90
  · rw [if_pos hc] at h
    exfalso
    have hv : (c.toNat + 32).isValidChar := by
      left
      show c.toNat + 32 < 0xd800
      omega
    have h2 := congrArg Char.toNat h
    rw [Char.ofNat, dif_pos hv] at h2
    simp [Char.ofNatAux, Char.toNat, UInt32.toNat, BitVec.toNat_ofNatLt] at h2
    have h3 : l.toNat = l.val.toBitVec.toNat := rfl
    have h4 : c.toNat = c.val.toBitVec.toNat := rfl
    omega
  · rw [if_neg hc] at h
    exact h

theorem ciEqc_eq_of_lt (c l : Char) (hl : l.toNat < 97) (hll : l.toLower = l)
    (h : ciEqc c l = true) : c = l := by
  rw [ciEqc_iff, hll] at h
  exact toLower_eq_of_lt c l hl h

theorem ciEqc_quote (c : Char) (h : ciEqc c '"' = true) : c = '"' :=
  ciEqc_eq_of_lt c '"' (by decide) (by decide) h

theorem ciEqL_length (v pat : List Char) (h : ciEqL v pat = true) :
    v.length = pat.length := by
  induction v generalizing pat with
  | nil => cases pat with
    | nil => rfl
    | cons t ts => simp [ciEqL] at h
  | cons a as ih =>
    cases pat with
    | nil => simp [ciEqL] at h
    | cons t ts =>
      simp only [ciEqL, Bool.and_eq_true] at h
      simp [ih ts h.2]

theorem notMem_of_ciEqL (v pat : List Char) (b : Char) (h : ciEqL v pat = true)
    (hb : ∀ t ∈ pat, ciEqc b t = false) : b ∉ v := by
  induction v generalizing pat with
  | nil => simp
  | cons a as ih =>
    cases pat with
    | nil => simp [ciEqL] at h
    | cons t ts =>
      simp only [ciEqL, Bool.and_eq_true] at h
      intro hmem
      rcases List.mem_cons.mp hmem with rfl | hmem
      · have hf := hb t (List.mem_cons_self t ts)
        have h1 := h.1
        rw [hf] at h1
        exact Bool.false_ne_true h1
      · exact ih ts h.2 (fun u hu => hb u (by simp [hu])) hmem

theorem gt_notMem_of_ciEqL_srcTok (v : List Char) (h : ciEqL v srcTok = true) : '>' ∉ v :=
  notMem_of_ciEqL v srcTok '>' h (by decide)

theorem gt_notMem_of_ciEqL_imgTok (v : List Char) (h : ciEqL v imgTok = true) : '>' ∉ v :=
  notMem_of_ciEqL v imgTok '>' h (by decide)

theorem quote_notMem_of_ciEqL_imgTok (v : List Char) (h : ciEqL v imgTok = true) : '"' ∉ v :=
  notMem_of_ciEqL v imgTok '"' h (by decide)

theorem ciEqL_srcTok_shape (v : List Char) (h : ciEqL v srcTok = true) :
    ∃ c₀ c₁ c₂ c₃, v = [c₀, c₁, c₂, c₃, '"'] ∧ ciEqc c₀ 's' = true ∧
      ciEqc c₁ 'r' = true ∧ ciEqc c₂ 'c' = true ∧ ciEqc c₃ '=' = true := by
  have hsrc : srcTok = ['s', 'r', 'c', '=', '"'] := rfl
  rw [hsrc] at h
  rcases v with _ | ⟨c₀, _ | ⟨c₁, _ | ⟨c₂, _ | ⟨c₃, _ | ⟨c₄, _ | ⟨c₅, v⟩⟩⟩⟩⟩⟩ <;>
    simp only [ciEqL, Bool.and_eq_true, Bool.false_eq_true, and_false, false_and] at h
  obtain ⟨h0, h1, h2, h3, h4, -⟩ := h
  exact ⟨c₀, c₁, c₂, c₃, by rw [ciEqc_quote c₄ h4], h0, h1, h2, h3⟩

theorem ciEqL_imgTok_shape (v : List Char) (h : ciEqL v imgTok = true) :
    ∃ c₁ c₂ c₃, v = ['<', c₁, c₂, c₃] ∧ ciEqc c₁ 'i' = true ∧
      ciEqc c₂ 'm' = true ∧ ciEqc c₃ 'g' = true := by
  have himg : imgTok = ['<', 'i', 'm', 'g'] := rfl
  rw [himg] at h
  rcases v with _ | ⟨c₀, _ | ⟨c₁, _ | ⟨c₂, _ | ⟨c₃, _ | ⟨c₄, v⟩⟩⟩⟩⟩ <;>
    simp only [ciEqL, Bool.and_eq_true, Bool.false_eq_true, and_false, false_and] at h
  obtain ⟨h0, h1, h2, h3, -⟩ := h
  have hc0 : c₀ = '<' := ciEqc_eq_of_lt c₀ '<' (by decide) (by decide) h0
  exact ⟨c₁, c₂, c₃, by rw [hc0], h1, h2, h3⟩

theorem ciEqL_refl (v : List Char) : ciEqL v v = true := by
  induction v with
  | nil => rfl
  | cons a as ih => simp [ciEqL, ciEqc_refl, ih]

theorem ciPrefix_of_ciEqL_append (v pat rest : List Char) (h : ciEqL v pat = true) :
    ciPrefix pat (v ++ rest) = true := by
  induction v generalizing pat with
  | nil =>
    cases pat with
    | nil => rfl
    | cons t ts => simp [ciEqL] at h
  | cons a as ih =>
    cases pat with
    | nil => simp [ciEqL] at h
    | cons t ts =>
      simp only [ciEqL, Bool.and_eq_true] at h
      simp [ciPrefix, ciEqc_symm a t h.1, ih ts h.2]

theorem ciPrefix_take_eqL (pat s : List Char) (h : ciPrefix pat s = true) :
    ciEqL (s.take pat.length) pat = true ∧ pat.length ≤ s.length := by
  induction pat generalizing s with
  | nil => simp [ciEqL]
  | cons t ts ih =>
    cases s with
    | nil => simp [ciPrefix] at h
    | cons a as =>
      simp only [ciPrefix, Bool.and_eq_true] at h
      obtain ⟨h1, h2⟩ := ih as h.2
      refine ⟨?_, by simp; omega⟩
      simp [List.take_cons, ciEqL, ciEqc_symm t a h.1, h1]

/-! ### Structure of `grabValue`, `grab0`, `findSrc0`, `tryMatch` -/

theorem grabValue_some (u S rest : List Char) (h : grabValue u = some (S, rest)) :
    u = S ++ '"' :: rest ∧ '"' ∉ S := by
  induction u generalizing S rest with
  | nil => simp [grabValue] at h
  | cons c cs ih =>
    by_cases hc : c = '"'
    · subst hc
      have h2 : some (([] : List Char), cs) = some (S, rest) := by
        rw [← h]
        simp [grabValue]
      simp only [Option.some.injEq, Prod.mk.injEq] at h2
      rw [← h2.1, ← h2.2]
      simp
    · have hstep : grabValue (c :: cs) = match grabValue cs with
        | some (S, rest) => some (c :: S, rest)
        | none => none := by
        simp [grabValue, hc]
      rw [hstep] at h
      cases hg : grabValue cs with
      | none => rw [hg] at h; simp at h
      | some p =>
        obtain ⟨S', r'⟩ := p
        rw [hg] at h
        simp only [Option.some.injEq, Prod.mk.injEq] at h
        rw [← h.1, ← h.2]
        obtain ⟨hu, hq2⟩ := ih S' r' hg
        rw [hu]
        refine ⟨by simp, ?_⟩
        simp only [List.mem_cons, not_or]
        exact ⟨fun hh => hc hh.symm, hq2⟩

theorem grabValue_append (S rest : List Char) (hq : '"' ∉ S) :
    grabValue (S ++ '"' :: rest) = some (S, rest) := by
  induction S with
  | nil => simp [grabValue]
  | cons c cs ih =>
    have hc : c ≠ '"' := by intro hh; exact hq (by simp [hh])
    have hcs : '"' ∉ cs := fun hm => hq (by simp [hm])
    simp [grabValue, hc, ih hcs]

theorem grab0_some (t sv S rest : List Char) (h : grab0 t = some (sv, S, rest)) :
    t = sv ++ (S ++ '"' :: rest) ∧ ciEqL sv srcTok = true ∧ S ≠ [] ∧ '"' ∉ S := by
  unfold grab0 at h
  by_cases hp : ciPrefix srcTok t = true
  · rw [if_pos hp] at h
    cases hg : grabValue (t.drop 5) with
    | none => rw [hg] at h; simp at h
    | some p =>
      obtain ⟨S', r'⟩ := p
      rw [hg] at h
      by_cases he : S'.isEmpty
      · simp [he] at h
      · simp only [he, if_false, Bool.false_eq_true, Option.some.injEq, Prod.mk.injEq] at h
        obtain ⟨rfl, rfl, rfl⟩ := h
        obtain ⟨hteq, hlen⟩ := ciPrefix_take_eqL srcTok t hp
        have h5 : srcTok.length = 5 := rfl
        rw [h5] at hteq hlen
        obtain ⟨hu, hq⟩ := grabValue_some _ _ _ hg
        refine ⟨?_, hteq, by simpa [List.isEmpty_iff] using he, hq⟩
        conv_lhs => rw [← List.take_append_drop 5 t]
        rw [hu]
  · rw [if_neg hp] at h
    simp at h

theorem grab0_construct (sv S rest : List Char) (hsv : ciEqL sv srcTok = true)
    (hS : S ≠ []) (hq : '"' ∉ S) :
    grab0 (sv ++ (S ++ '"' :: rest)) = some (sv, S, rest) := by
  have hlen : sv.length = 5 := by rw [ciEqL_length sv srcTok hsv]; rfl
  unfold grab0
  rw [if_pos (ciPrefix_of_ciEqL_append sv srcTok _ hsv)]
  have hdrop : (sv ++ (S ++ '"' :: rest)).drop 5 = S ++ '"' :: rest := by
    rw [← hlen, List.drop_left]
  have htake : (sv ++ (S ++ '"' :: rest)).take 5 = sv := by
    rw [← hlen, List.take_left]
  rw [hdrop, grabValue_append S rest hq, htake]
  simp [List.isEmpty_iff, hS]

/-- A viable anchoring of the tail pattern `([^>]*)src="([^"]+)"` on `t`. -/
def ValidDec (t A sv S rest : List Char) : Prop :=
  t = A ++ (sv ++ (S ++ '"' :: rest)) ∧ '>' ∉ A ∧ ciEqL sv srcTok = true ∧
    S ≠ [] ∧ '"' ∉ S

/-- A viable anchoring of the whole pattern `<img([^>]+)src="([^"]+)"` on `s`. -/
def FullDec (s vi A sv S rest : List Char) : Prop :=
  s = vi ++ (A ++ (sv ++ (S ++ '"' :: rest))) ∧ ciEqL vi imgTok = true ∧ A ≠ [] ∧
    '>' ∉ A ∧ ciEqL sv srcTok = true ∧ S ≠ [] ∧ '"' ∉ S

theorem findSrc0_cons (c : Char) (r : List Char) :
    findSrc0 (c :: r) =
      match (if c = '>' then none
             else (findSrc0 r).map fun m => SrcMatch.mk (c :: m.attrs) m.srcq m.value m.rest) with
      | some m => some m
      | none =>
        match grab0 (c :: r) with
        | some (sv, S, rest) => some ⟨[], sv, S, rest⟩
        | none => none := rfl

theorem findSrc0_struct (t : List Char) (m : SrcMatch) (h : findSrc0 t = some m) :
    ValidDec t m.attrs m.srcq m.value m.rest := by
  induction t generalizing m with
  | nil => simp [findSrc0] at h
  | cons c r ih =>
    simp only [findSrc0] at h
    by_cases hc : c = '>'
    · rw [if_pos hc] at h
      cases hg : grab0 (c :: r) with
      | none => rw [hg] at h; simp at h
      | some p =>
        obtain ⟨sv, S, rest⟩ := p
        rw [hg] at h
        simp only [Option.some.injEq] at h
        subst h
        obtain ⟨ht, hsv, hS, hq⟩ := grab0_some _ _ _ _ hg
        exact ⟨by simpa using ht, by simp, hsv, hS, hq⟩
    · rw [if_neg hc] at h
      cases hf : findSrc0 r with
      | some m' =>
        rw [hf] at h
        simp only [Option.map_some', Option.some.injEq] at h
        subst h
        obtain ⟨ht, hA, hsv, hS, hq⟩ := ih m' hf
        refine ⟨by simp [ht], ?_, hsv, hS, hq⟩
        intro hmem
        rcases List.mem_cons.mp hmem with h1 | h1
        · exact hc h1.symm
        · exact hA h1
      | none =>
        rw [hf] at h
        simp only [Option.map_none'] at h
        cases hg : grab0 (c :: r) with
        | none => rw [hg] at h; simp at h
        | some p =>
          obtain ⟨sv, S, rest⟩ := p
          rw [hg] at h
          simp only [Option.some.injEq] at h
          subst h
          obtain ⟨ht, hsv, hS, hq⟩ := grab0_some _ _ _ _ hg
          exact ⟨by simpa using ht, by simp, hsv, hS, hq⟩

theorem findSrc0_none (t : List Char) (h : findSrc0 t = none) :
    ∀ A sv S rest, ¬ ValidDec t A sv S rest := by
  induction t with
  | nil =>
    intro A sv S rest hd
    obtain ⟨ht, _, hsv, _, _⟩ := hd
    have := ciEqL_length sv srcTok hsv
    have := congrArg List.length ht
    simp at this
    omega
  | cons c r ih =>
    intro A sv S rest hd
    obtain ⟨ht, hA, hsv, hS, hq⟩ := hd
    simp only [findSrc0] at h
    cases A with
    | nil =>
      simp only [List.nil_append] at ht
      have hg : grab0 (c :: r) = some (sv, S, rest) := by
        rw [ht]
        exact grab0_construct sv S rest hsv hS hq
      rw [hg] at h
      cases hif : (if c = '>' then none
          else (findSrc0 r).map fun m => SrcMatch.mk (c :: m.attrs) m.srcq m.value m.rest) with
      | none => rw [hif] at h; simp at h
      | some m' => rw [hif] at h; simp at h
    | cons a A' =>
      have hca : a = c ∧ r = A' ++ (sv ++ (S ++ '"' :: rest)) := by
        rw [List.cons_append] at ht
        exact ⟨(List.cons.injEq _ _ _ _ ▸ ht).1.symm, (List.cons.injEq _ _ _ _ ▸ ht).2⟩
      obtain ⟨rfl, hr⟩ := hca
      have hcne : ¬ a = '>' := fun hh => hA (by simp [hh])
      rw [if_neg hcne] at h
      cases hf : findSrc0 r with
      | some m' => rw [hf] at h; simp at h
      | none =>
        refine ih hf A' sv S rest ⟨hr, ?_, hsv, hS, hq⟩
        intro hmem
        exact hA (by simp [hmem])

theorem findSrc0_maximal (t : List Char) (m : SrcMatch) (h : findSrc0 t = some m) :
    ∀ A sv S rest, ValidDec t A sv S rest → A.length ≤ m.attrs.length := by
  induction t generalizing m with
  | nil => simp [findSrc0] at h
  | cons c r ih =>
    intro A sv S rest hd
    obtain ⟨ht, hA, hsv, hS, hq⟩ := hd
    simp only [findSrc0] at h
    by_cases hc : c = '>'
    · rw [if_pos hc] at h
      cases A with
      | nil => simp
      | cons a A' =>
        exfalso
        rw [List.cons_append] at ht
        have ha : a = c := ((List.cons.injEq _ _ _ _).mp ht).1.symm
        exact hA (by simp [ha, hc])
    · rw [if_neg hc] at h
      cases hf : findSrc0 r with
      | some m' =>
        rw [hf] at h
        simp only [Option.map_some', Option.some.injEq] at h
        subst h
        cases A with
        | nil => simp
        | cons a A' =>
          rw [List.cons_append] at ht
          have ha : a = c := ((List.cons.injEq _ _ _ _).mp ht).1.symm
          have hr : r = A' ++ (sv ++ (S ++ '"' :: rest)) := ((List.cons.injEq _ _ _ _).mp ht).2
          have := ih m' hf A' sv S rest ⟨hr, fun hm => hA (by simp [hm]), hsv, hS, hq⟩
          simp only [List.length_cons]
          omega
      | none =>
        rw [hf] at h
        simp only [Option.map_none'] at h
        cases A with
        | nil => simp
        | cons a A' =>
          exfalso
          rw [List.cons_append] at ht
          have hr : r = A' ++ (sv ++ (S ++ '"' :: rest)) := ((List.cons.injEq _ _ _ _).mp ht).2
          exact findSrc0_none r hf A' sv S rest ⟨hr, fun hm => hA (by simp [hm]), hsv, hS, hq⟩

theorem findSrc0_eq_of (t A sv S rest : List Char) (hd : ValidDec t A sv S rest)
    (hmax : ∀ A₂ sv₂ S₂ rest₂, ValidDec t A₂ sv₂ S₂ rest₂ → A₂.length ≤ A.length) :
    findSrc0 t = some ⟨A, sv, S, rest⟩ := by
  induction A generalizing t with
  | nil =>
    obtain ⟨ht, _, hsv, hS, hq⟩ := hd
    simp only [List.nil_append] at ht
    obtain ⟨c₀, c₁, c₂, c₃, hsveq, hci0, _, _, _⟩ := ciEqL_srcTok_shape sv hsv
    have htc : t = c₀ :: ([c₁, c₂, c₃, '"'] ++ (S ++ '"' :: rest)) := by
      rw [ht, hsveq]
      simp
    have hc0 : ¬ c₀ = '>' := by
      intro hh
      rw [hh] at hci0
      exact Bool.false_ne_true ((by decide : ciEqc '>' 's' = false) ▸ hci0)
    have hfr : findSrc0 ([c₁, c₂, c₃, '"'] ++ (S ++ '"' :: rest)) = none := by
      cases hf : findSrc0 ([c₁, c₂, c₃, '"'] ++ (S ++ '"' :: rest)) with
      | none => rfl
      | some m' =>
        exfalso
        obtain ⟨hr, hA', hsv', hS', hq'⟩ := findSrc0_struct _ _ hf
        have : ValidDec t (c₀ :: m'.attrs) m'.srcq m'.value m'.rest := by
          refine ⟨?_, ?_, hsv', hS', hq'⟩
          · rw [htc, hr]
            simp
          · intro hm
            rcases List.mem_cons.mp hm with h1 | h1
            · exact hc0 h1.symm
            · exact hA' h1
        have := hmax _ _ _ _ this
        simp at this
      
    have hg : grab0 (c₀ :: ([c₁, c₂, c₃, '"'] ++ (S ++ '"' :: rest))) = some (sv, S, rest) := by
      have heq : c₀ :: ([c₁, c₂, c₃, '"'] ++ (S ++ '"' :: rest)) = sv ++ (S ++ '"' :: rest) := by
        rw [hsveq]
        simp
      rw [heq]
      exact grab0_construct sv S rest hsv hS hq
    rw [htc, findSrc0_cons, if_neg hc0, hfr]
    simp only [Option.map_none']
    rw [hg]
  | cons a A' ih =>
    obtain ⟨ht, hA, hsv, hS, hq⟩ := hd
    rw [List.cons_append] at ht
    have hane : ¬ a = '>' := fun hh => hA (by simp [hh])
    have hr : ValidDec (A' ++ (sv ++ (S ++ '"' :: rest))) A' sv S rest :=
      ⟨rfl, fun hm => hA (by simp [hm]), hsv, hS, hq⟩
    have hmax' : ∀ A₂ sv₂ S₂ rest₂,
        ValidDec (A' ++ (sv ++ (S ++ '"' :: rest))) A₂ sv₂ S₂ rest₂ →
          A₂.length ≤ A'.length := by
      intro A₂ sv₂ S₂ rest₂ hd₂
      obtain ⟨ht₂, hA₂, hsv₂, hS₂, hq₂⟩ := hd₂
      have : ValidDec t (a :: A₂) sv₂ S₂ rest₂ := by
        refine ⟨?_, ?_, hsv₂, hS₂, hq₂⟩
        · rw [ht, ht₂]
          simp
        · intro hm
          rcases List.mem_cons.mp hm with h1 | h1
          · exact hane h1.symm
          · exact hA₂ h1
      have := hmax _ _ _ _ this
      simp only [List.length_cons] at this
      omega
    have hfr := ih _ hr hmax'
    rw [ht, findSrc0_cons, if_neg hane, hfr]
    simp only [Option.map_some']

theorem tryMatch_cons_core (s : List Char) (c : Char) (r : List Char)
    (hp : ciPrefix imgTok s = true) (hds : s.drop 4 = c :: r) :
    tryMatch s = (if c = '>' then none
      else match findSrc0 r with
        | some m => some ⟨s.take 4, c :: m.attrs, m.srcq, m.value, m.rest⟩
        | none => none) := by
  unfold tryMatch
  rw [if_pos hp, hds]

theorem tryMatch_nil_core (s : List Char) (hp : ciPrefix imgTok s = true)
    (hds : s.drop 4 = []) : tryMatch s = none := by
  unfold tryMatch
  rw [if_pos hp, hds]

theorem tryMatch_struct (s : List Char) (m : ImgMatch) (h : tryMatch s = some m) :
    FullDec s m.imgTag m.attrs m.srcq m.value m.rest := by
  by_cases hp : ciPrefix imgTok s = true
  · obtain ⟨hvi, hlen⟩ := ciPrefix_take_eqL imgTok s hp
    have h4 : imgTok.length = 4 := rfl
    rw [h4] at hvi hlen
    cases hds : s.drop 4 with
    | nil => rw [tryMatch_nil_core s hp hds] at h; simp at h
    | cons c r =>
      rw [tryMatch_cons_core s c r hp hds] at h
      by_cases hc : c = '>'
      · rw [if_pos hc] at h
        simp at h
      · rw [if_neg hc] at h
        cases hf : findSrc0 r with
        | none =>
          rw [hf] at h
          replace h : (none : Option ImgMatch) = some m := h
          simp at h
        | some m' =>
          rw [hf] at h
          replace h : some (ImgMatch.mk (s.take 4) (c :: m'.attrs) m'.srcq m'.value
            m'.rest) = some m := h
          simp only [Option.some.injEq] at h
          subst h
          obtain ⟨hr, hA', hsv, hS, hq⟩ := findSrc0_struct r m' hf
          refine ⟨?_, hvi, by simp, ?_, hsv, hS, hq⟩
          · conv_lhs => rw [← List.take_append_drop 4 s]
            rw [hds, hr]
            simp
          · intro hm
            rcases List.mem_cons.mp hm with h1 | h1
            · exact hc h1.symm
            · exact hA' h1
  · unfold tryMatch at h
    rw [if_neg hp] at h
    simp at h

theorem fullDec_drop4 (s vi A sv S rest : List Char) (hd : FullDec s vi A sv S rest) :
    s.take 4 = vi ∧ s.drop 4 = A ++ (sv ++ (S ++ '"' :: rest)) := by
  obtain ⟨hs, hvi, _, _, _, _, _⟩ := hd
  have hlen : vi.length = 4 := by rw [ciEqL_length vi imgTok hvi]; rfl
  constructor
  · rw [hs, ← hlen, List.take_left]
  · rw [hs, ← hlen, List.drop_left]

theorem tryMatch_none (s : List Char) (h : tryMatch s = none) :
    ∀ vi A sv S rest, ¬ FullDec s vi A sv S rest := by
  intro vi A sv S rest hd
  obtain ⟨htk, hdr⟩ := fullDec_drop4 s vi A sv S rest hd
  obtain ⟨hs, hvi, hA, hgtA, hsv, hS, hq⟩ := hd
  have hp : ciPrefix imgTok s = true := by
    rw [hs]
    exact ciPrefix_of_ciEqL_append vi imgTok _ hvi
  cases A with
  | nil => exact hA rfl
  | cons a A' =>
    rw [List.cons_append] at hdr
    rw [tryMatch_cons_core s a _ hp hdr] at h
    have hane : ¬ a = '>' := fun hh => hgtA (by simp [hh])
    rw [if_neg hane] at h
    cases hf : findSrc0 (A' ++ (sv ++ (S ++ '"' :: rest))) with
    | some m' =>
      rw [hf] at h
      replace h : some (ImgMatch.mk (s.take 4) (a :: m'.attrs) m'.srcq m'.value
        m'.rest) = none := h
      simp at h
    | none =>
      exact findSrc0_none _ hf A' sv S rest
        ⟨rfl, fun hm => hgtA (by simp [hm]), hsv, hS, hq⟩

theorem tryMatch_maximal (s : List Char) (m : ImgMatch) (h : tryMatch s = some m) :
    ∀ vi A sv S rest, FullDec s vi A sv S rest → A.length ≤ m.attrs.length := by
  intro vi A sv S rest hd
  obtain ⟨htk, hdr⟩ := fullDec_drop4 s vi A sv S rest hd
  obtain ⟨hs, hvi, hA, hgtA, hsv, hS, hq⟩ := hd
  have hp : ciPrefix imgTok s = true := by
    rw [hs]
    exact ciPrefix_of_ciEqL_append vi imgTok _ hvi
  cases A with
  | nil => simp
  | cons a A' =>
    rw [List.cons_append] at hdr
    rw [tryMatch_cons_core s a _ hp hdr] at h
    have hane : ¬ a = '>' := fun hh => hgtA (by simp [hh])
    rw [if_neg hane] at h
    cases hf : findSrc0 (A' ++ (sv ++ (S ++ '"' :: rest))) with
    | none =>
      rw [hf] at h
      replace h : (none : Option ImgMatch) = some m := h
      simp at h
    | some m' =>
      rw [hf] at h
      replace h : some (ImgMatch.mk (s.take 4) (a :: m'.attrs) m'.srcq m'.value
        m'.rest) = some m := h
      simp only [Option.some.injEq] at h
      subst h
      have := findSrc0_maximal _ m' hf A' sv S rest
        ⟨rfl, fun hm => hgtA (by simp [hm]), hsv, hS, hq⟩
      simp only [List.length_cons]
      omega

theorem tryMatch_eq_of (s vi A sv S rest : List Char) (hd : FullDec s vi A sv S rest)
    (hmax : ∀ vi₂ A₂ sv₂ S₂ rest₂, FullDec s vi₂ A₂ sv₂ S₂ rest₂ →
      A₂.length ≤ A.length) :
    tryMatch s = some ⟨vi, A, sv, S, rest⟩ := by
  obtain ⟨htk, hdr⟩ := fullDec_drop4 s vi A sv S rest hd
  obtain ⟨hs, hvi, hA, hgtA, hsv, hS, hq⟩ := hd
  have hp : ciPrefix imgTok s = true := by
    rw [hs]
    exact ciPrefix_of_ciEqL_append vi imgTok _ hvi
  cases A with
  | nil => exact absurd rfl hA
  | cons a A' =>
    rw [List.cons_append] at hdr
    rw [tryMatch_cons_core s a _ hp hdr]
    have hane : ¬ a = '>' := fun hh => hgtA (by simp [hh])
    rw [if_neg hane]
    have hfr : findSrc0 (A' ++ (sv ++ (S ++ '"' :: rest))) = some ⟨A', sv, S, rest⟩ := by
      refine findSrc0_eq_of _ A' sv S rest
        ⟨rfl, fun hm => hgtA (by simp [hm]), hsv, hS, hq⟩ ?_
      intro A₂ sv₂ S₂ rest₂ hd₂
      obtain ⟨ht₂, hA₂, hsv₂, hS₂, hq₂⟩ := hd₂
      have hfd : FullDec s vi (a :: A₂) sv₂ S₂ rest₂ := by
        refine ⟨?_, hvi, by simp, ?_, hsv₂, hS₂, hq₂⟩
        · rw [hs, List.cons_append, ht₂]
          simp
        · intro hm
          rcases List.mem_cons.mp hm with h1 | h1
          · exact hane h1.symm
          · exact hA₂ h1
      have := hmax _ _ _ _ _ hfd
      simp only [List.length_cons] at this
      omega
    rw [hfr]
    show some (ImgMatch.mk (s.take 4) (a :: A') sv S rest) = some ⟨vi, a :: A', sv, S, rest⟩
    rw [htk]

theorem tryMatch_rest_length (s : List Char) (m : ImgMatch) (h : tryMatch s = some m) :
    m.rest.length + 11 ≤ s.length := by
  obtain ⟨hs, hvi, hA, _, hsv, hS, _⟩ := tryMatch_struct s m h
  have h1 : m.imgTag.length = 4 := by rw [ciEqL_length _ imgTok hvi]; rfl
  have h2 : m.srcq.length = 5 := by rw [ciEqL_length _ srcTok hsv]; rfl
  have h3 : 1 ≤ m.attrs.length := by
    cases hm : m.attrs with
    | nil => exact absurd hm hA
    | cons x xs => simp
  have h4 : 1 ≤ m.value.length := by
    cases hm : m.value with
    | nil => exact absurd hm hS
    | cons x xs => simp
  have := congrArg List.length hs
  simp only [List.length_append, List.length_cons] at this
  omega

theorem scanGo_cons_some (fuel : Nat) (c : Char) (cs : List Char) (m : ImgMatch)
    (h : tryMatch (c :: cs) = some m) :
    scanGo (fuel + 1) (c :: cs) = rewriteMatch m ++ scanGo fuel m.rest := by
  simp [scanGo, h]

theorem scanGo_cons_none (fuel : Nat) (c : Char) (cs : List Char)
    (h : tryMatch (c :: cs) = none) :
    scanGo (fuel + 1) (c :: cs) = c :: scanGo fuel cs := by
  simp [scanGo, h]

theorem scanGo_congr : ∀ f₁ f₂ (s : List Char), s.length ≤ f₁ → s.length ≤ f₂ →
    scanGo f₁ s = scanGo f₂ s := by
  intro f₁
  induction f₁ with
  | zero =>
    intro f₂ s h1 h2
    have : s = [] := List.eq_nil_of_length_eq_zero (by omega)
    subst this
    cases f₂ <;> simp [scanGo]
  | succ f ih =>
    intro f₂ s h1 h2
    cases s with
    | nil => cases f₂ <;> simp [scanGo]
    | cons c cs =>
      cases f₂ with
      | zero => simp at h2
      | succ f₂' =>
        cases hm : tryMatch (c :: cs) with
        | some m =>
          rw [scanGo_cons_some f c cs m hm, scanGo_cons_some f₂' c cs m hm]
          have hr := tryMatch_rest_length _ _ hm
          simp only [List.length_cons] at h1 h2 hr
          rw [ih f₂' m.rest (by omega) (by omega)]
        | none =>
          rw [scanGo_cons_none f c cs hm, scanGo_cons_none f₂' c cs hm]
          simp only [List.length_cons] at h1 h2
          rw [ih f₂' cs (by omega) (by omega)]

theorem adjust_eq_scanGo (s : List Char) (f : Nat) (h : s.length ≤ f) :
    adjustHtmlImagePaths s = scanGo f s :=
  scanGo_congr s.length f s (le_refl _) h

theorem adjust_cons_some (c : Char) (cs : List Char) (m : ImgMatch)
    (h : tryMatch (c :: cs) = some m) :
    adjustHtmlImagePaths (c :: cs) = rewriteMatch m ++ adjustHtmlImagePaths m.rest := by
  unfold adjustHtmlImagePaths
  rw [show (c :: cs).length = cs.length + 1 from rfl, scanGo_cons_some _ _ _ _ h]
  have hr := tryMatch_rest_length _ _ h
  simp only [List.length_cons] at hr
  rw [scanGo_congr cs.length m.rest.length m.rest (by omega) (le_refl _)]

theorem adjust_cons_none (c : Char) (cs : List Char) (h : tryMatch (c :: cs) = none) :
    adjustHtmlImagePaths (c :: cs) = c :: adjustHtmlImagePaths cs := by
  unfold adjustHtmlImagePaths
  rw [show (c :: cs).length = cs.length + 1 from rfl, scanGo_cons_none _ _ _ h]

/-! ### The simulation relation between a text and its rewritten image

`Rw z y` says `y` is obtained from `z` by, repeatedly: copying a
character; replacing a case-variant of `<img` by the literal `<img`; or
replacing a case-variant of `src="` by the literal `src="` followed by an
inserted non-empty block of characters from `../en` (insertions happen
only right after a `src="` whose following value does not start with a
quote).  The output of `adjustHtmlImagePaths` is such an image of its
input (`rw_scan`), and all matching behaviour transfers along the
relation. -/

def insChars : List Char := ['.', '/', 'e', 'n']

inductive Rw : List Char → List Char → Prop
  | nil : Rw [] []
  | cons (c : Char) {x y : List Char} : Rw x y → Rw (c :: x) (c :: y)
  | img (v : List Char) {x y : List Char} : ciEqL v imgTok = true → Rw x y →
      Rw (v ++ x) (imgTok ++ y)
  | src (v w : List Char) {x y : List Char} : ciEqL v srcTok = true →
      (∀ c ∈ w, c ∈ insChars) → w ≠ [] → x.head? ≠ some '"' → Rw x y →
      Rw (v ++ x) (srcTok ++ (w ++ y))

theorem insChar_facts (c : Char) (h : c ∈ insChars) :
    c ≠ '"' ∧ c ≠ '>' ∧ ciEqc c 's' = false := by
  simp only [insChars, List.mem_cons, List.not_mem_nil, or_false] at h
  rcases h with rfl | rfl | rfl | rfl <;> exact ⟨by decide, by decide, by decide⟩

theorem append_inj_of_le {α : Type} (l₁ r₁ l₂ r₂ : List α) (h : l₁ ++ r₁ = l₂ ++ r₂)
    (hl : l₁.length ≤ l₂.length) : ∃ δ, l₂ = l₁ ++ δ ∧ r₁ = δ ++ r₂ := by
  induction l₁ generalizing l₂ with
  | nil => exact ⟨l₂, rfl, by simpa using h⟩
  | cons a l₁' ih =>
    cases l₂ with
    | nil => simp at hl
    | cons b l₂' =>
      rw [List.cons_append, List.cons_append] at h
      have hab : a = b := ((List.cons.injEq _ _ _ _).mp h).1
      have h' : l₁' ++ r₁ = l₂' ++ r₂ := ((List.cons.injEq _ _ _ _).mp h).2
      obtain ⟨δ, hδ1, hδ2⟩ := ih l₂' h' (by simp at hl; omega)
      exact ⟨δ, by rw [hδ1, hab, List.cons_append], hδ2⟩

theorem quote_split (u : List Char) (h : '"' ∈ u) :
    ∃ S r, u = S ++ '"' :: r ∧ '"' ∉ S ∧ (u.head? ≠ some '"' → S ≠ []) := by
  induction u with
  | nil => simp at h
  | cons c cs ih =>
    by_cases hc : c = '"'
    · subst hc
      exact ⟨[], cs, rfl, by simp, fun hh => absurd rfl hh⟩
    · have hcs : '"' ∈ cs := by
        rcases List.mem_cons.mp h with h1 | h1
        · exact absurd h1.symm hc
        · exact h1
      obtain ⟨S', r', he, hq, _⟩ := ih hcs
      exact ⟨c :: S', r', by rw [he, List.cons_append],
        by simp [hq]; exact fun hh => hc hh.symm, by simp⟩

theorem rw_nil_iff (z y : List Char) (h : Rw z y) : z = [] ↔ y = [] := by
  induction h with
  | nil => simp
  | cons c h ih => simp
  | img v hv h ih =>
    have hlen : v.length = 4 := by rw [ciEqL_length v imgTok hv]; rfl
    constructor <;> intro hh <;> exfalso <;> have hl := congrArg List.length hh <;>
      simp [hlen, show imgTok.length = 4 from rfl] at hl
  | src v w hv hw hwne hhq h ih =>
    have hlen : v.length = 5 := by rw [ciEqL_length v srcTok hv]; rfl
    constructor <;> intro hh <;> exfalso <;> have hl := congrArg List.length hh <;>
      simp [hlen, show srcTok.length = 5 from rfl] at hl

theorem rw_nil_left (y : List Char) (h : Rw [] y) : y = [] :=
  (rw_nil_iff [] y h).mp rfl

theorem rw_head_quote (z y : List Char) (h : Rw z y) :
    (z.head? = some '"' ↔ y.head? = some '"') := by
  cases h with
  | nil => simp
  | cons c h => simp
  | img v hv h =>
    obtain ⟨c₁, c₂, c₃, hveq, _, _, _⟩ := ciEqL_imgTok_shape v hv
    subst hveq
    constructor
    · intro hh
      simp at hh
    · intro hh
      rw [show imgTok = ['<', 'i', 'm', 'g'] from rfl] at hh
      simp at hh
  | src v w hv hw hwne hhq h =>
    obtain ⟨c₀, c₁, c₂, c₃, hveq, hci0, _, _, _⟩ := ciEqL_srcTok_shape v hv
    subst hveq
    constructor
    · intro hh
      simp only [List.cons_append, List.head?_cons, Option.some.injEq] at hh
      rw [hh] at hci0
      exact absurd hci0 (by decide)
    · intro hh
      rw [show srcTok = ['s', 'r', 'c', '=', '"'] from rfl] at hh
      simp at hh

theorem rw_quote_mem (z y : List Char) (h : Rw z y) : ('"' ∈ z ↔ '"' ∈ y) := by
  induction h with
  | nil => simp
  | cons c h ih => simp [ih]
  | img v hv h ih =>
    have h1 : '"' ∉ v := quote_notMem_of_ciEqL_imgTok v hv
    have h2 : '"' ∉ imgTok := by decide
    simp [List.mem_append, h1, h2, ih]
  | src v w hv hw hwne hhq h ih =>
    obtain ⟨c₀, c₁, c₂, c₃, hveq, _, _, _, _⟩ := ciEqL_srcTok_shape v hv
    have h1 : '"' ∈ v := by rw [hveq]; simp
    have h2 : '"' ∈ srcTok := by decide
    simp [List.mem_append, h1, h2]

theorem rw_append_left (l u v : List Char) (h : Rw u v) : Rw (l ++ u) (l ++ v) := by
  induction l with
  | nil => simpa using h
  | cons c cs ih => exact Rw.cons c ih

theorem token_peel (pat : List Char)
    (hpat : ∀ p ∈ pat, ciEqc p '<' = false ∧ ciEqc p 's' = false) :
    ∀ z y, Rw z y → ∀ vy y₀, y = vy ++ y₀ → ciEqL vy pat = true →
      ∃ vz z₀, z = vz ++ z₀ ∧ ciEqL vz pat = true ∧ Rw z₀ y₀ := by
  induction pat with
  | nil =>
    intro z y hrw vy y₀ hy hv
    have hvy : vy = [] := by
      cases vy with
      | nil => rfl
      | cons b vy' => simp [ciEqL] at hv
    subst hvy
    simp only [List.nil_append] at hy
    subst hy
    exact ⟨[], z, rfl, rfl, hrw⟩
  | cons p ps ih =>
    intro z y hrw vy y₀ hy hv
    cases vy with
    | nil => simp [ciEqL] at hv
    | cons b vy' =>
      simp only [ciEqL, Bool.and_eq_true] at hv
      obtain ⟨hbp, hv'⟩ := hv
      rw [List.cons_append] at hy
      cases hrw with
      | nil => simp at hy
      | cons c hsub =>
        have hcb : c = b := ((List.cons.injEq _ _ _ _).mp hy).1
        have hyt : _ = vy' ++ y₀ := ((List.cons.injEq _ _ _ _).mp hy).2
        obtain ⟨vz', z₀, hz1, hz2, hz3⟩ :=
          ih (fun p hp => hpat p (by simp [hp])) _ _ hsub vy' y₀ hyt hv'
        refine ⟨c :: vz', z₀, by rw [hz1, List.cons_append], ?_, hz3⟩
        simp only [ciEqL, Bool.and_eq_true]
        exact ⟨hcb ▸ hbp, hz2⟩
      | img v hvi hsub =>
        exfalso
        rw [show imgTok = ['<', 'i', 'm', 'g'] from rfl] at hy
        have hb : '<' = b := ((List.cons.injEq _ _ _ _).mp hy).1
        have h2 := ciEqc_symm b p hbp
        rw [← hb] at h2
        rw [(hpat p (by simp)).1] at h2
        exact Bool.false_ne_true h2
      | src v w hvs hw hwne hhq hsub =>
        exfalso
        rw [show srcTok = ['s', 'r', 'c', '=', '"'] from rfl] at hy
        have hb : 's' = b := ((List.cons.injEq _ _ _ _).mp hy).1
        have h2 := ciEqc_symm b p hbp
        rw [← hb] at h2
        rw [(hpat p (by simp)).2] at h2
        exact Bool.false_ne_true h2

theorem rw_value_split (x y S₂ rest₂ : List Char) (hrw : Rw x y)
    (hy : y = S₂ ++ '"' :: rest₂) (hS : S₂ ≠ []) (hq : '"' ∉ S₂) :
    ∃ S₃ r₃, x = S₃ ++ '"' :: r₃ ∧ '"' ∉ S₃ ∧ S₃ ≠ [] := by
  have hqy : '"' ∈ y := by rw [hy]; simp
  have hqx : '"' ∈ x := (rw_quote_mem x y hrw).mpr hqy
  obtain ⟨S₃, r₃, hx, hq₃, hne₃⟩ := quote_split x hqx
  refine ⟨S₃, r₃, hx, hq₃, hne₃ ?_⟩
  have hyh : y.head? ≠ some '"' := by
    rw [hy]
    cases S₂ with
    | nil => exact absurd rfl hS
    | cons a S₂' =>
      simp only [List.cons_append, List.head?_cons, ne_eq, Option.some.injEq]
      intro hh
      exact hq (by simp [hh])
  intro hh
  exact hyh ((rw_head_quote x y hrw).mp hh)

theorem rw_backport (z y : List Char) (hrw : Rw z y) :
    ∀ A sv S rest, ValidDec y A sv S rest →
      ∃ Az svz Sz restz, ValidDec z Az svz Sz restz ∧ (A ≠ [] → Az ≠ []) := by
  induction hrw with
  | nil =>
    intro A sv S rest hd
    exfalso
    obtain ⟨hy, _, hsv, _, _⟩ := hd
    have h1 := ciEqL_length sv srcTok hsv
    rw [show srcTok.length = 5 from rfl] at h1
    have h2 := congrArg List.length hy
    simp [h1] at h2
    omega
  | cons c hsub ih =>
    rename_i x y
    intro A sv S rest hd
    obtain ⟨hy, hA, hsv, hS, hq⟩ := hd
    obtain ⟨c₀, c₁, c₂, c₃, hsveq, hci0, hci1, hci2, hci3⟩ := ciEqL_srcTok_shape sv hsv
    subst hsveq
    cases A with
    | nil =>
      simp only [List.nil_append, List.cons_append, List.cons.injEq] at hy
      obtain ⟨hc0, hytail⟩ := hy
      have hytail' : y = [c₁, c₂, c₃, '"'] ++ (S ++ '"' :: rest) := by
        rw [hytail]
        simp
      have hcie : ciEqL [c₁, c₂, c₃, '"'] ['r', 'c', '=', '"'] = true := by
        simp only [ciEqL, Bool.and_eq_true]
        exact ⟨hci1, hci2, hci3, ciEqc_refl '"', trivial⟩
      obtain ⟨vz, z₀, hz1, hz2, hz3⟩ := token_peel ['r', 'c', '=', '"'] (by decide)
        x y hsub [c₁, c₂, c₃, '"'] (S ++ '"' :: rest) hytail' hcie
      obtain ⟨S₃, r₃, hx0, hq₃, hS₃⟩ := rw_value_split z₀ _ S rest hz3 rfl hS hq
      refine ⟨[], c :: vz, S₃, r₃, ⟨?_, by simp, ?_, hS₃, hq₃⟩, fun hh => absurd rfl hh⟩
      · rw [hz1, hx0]
        simp
      · rw [show srcTok = ['s', 'r', 'c', '=', '"'] from rfl]
        simp only [ciEqL, Bool.and_eq_true]
        exact ⟨hc0 ▸ hci0, (by simpa [ciEqL] using hz2 : _)⟩
    | cons a A' =>
      rw [List.cons_append] at hy
      have ha : c = a := ((List.cons.injEq _ _ _ _).mp hy).1
      have hyt : y = A' ++ ([c₀, c₁, c₂, c₃, '"'] ++ (S ++ '"' :: rest)) :=
        ((List.cons.injEq _ _ _ _).mp hy).2
      have hvd : ValidDec y A' [c₀, c₁, c₂, c₃, '"'] S rest :=
        ⟨hyt, fun hm => hA (by simp [hm]), hsv, hS, hq⟩
      obtain ⟨Az', svz, Sz, restz, ⟨hz1, hz2, hz3, hz4, hz5⟩, _⟩ := ih A' _ S rest hvd
      refine ⟨c :: Az', svz, Sz, restz, ⟨?_, ?_, hz3, hz4, hz5⟩, by simp⟩
      · rw [hz1]
        simp
      · intro hm
        rcases List.mem_cons.mp hm with h1 | h1
        · rw [ha] at h1
          exact hA (by simp [← h1])
        · exact hz2 h1
  | img v hvi hsub ih =>
    rename_i x y
    intro A sv S rest hd
    obtain ⟨hy, hA, hsv, hS, hq⟩ := hd
    obtain ⟨c₀, c₁, c₂, c₃, hsveq, hci0, hci1, hci2, hci3⟩ := ciEqL_srcTok_shape sv hsv
    subst hsveq
    rw [show imgTok = ['<', 'i', 'm', 'g'] from rfl] at hy
    rcases A with _ | ⟨a1, _ | ⟨a2, _ | ⟨a3, _ | ⟨a4, A4⟩⟩⟩⟩
    · exfalso
      simp only [List.nil_append, List.cons_append, List.cons.injEq] at hy
      rw [← hy.1] at hci0
      exact absurd hci0 (by decide)
    · exfalso
      simp only [List.cons_append, List.cons.injEq, List.nil_append] at hy
      rw [← hy.2.1] at hci0
      exact absurd hci0 (by decide)
    · exfalso
      simp only [List.cons_append, List.cons.injEq, List.nil_append] at hy
      rw [← hy.2.2.1] at hci0
      exact absurd hci0 (by decide)
    · exfalso
      simp only [List.cons_append, List.cons.injEq, List.nil_append] at hy
      rw [← hy.2.2.2.1] at hci0
      exact absurd hci0 (by decide)
    · simp only [List.cons_append, List.cons.injEq, List.nil_append] at hy
      obtain ⟨ha1, ha2, ha3, ha4, hyt⟩ := hy
      have hvd : ValidDec y A4 [c₀, c₁, c₂, c₃, '"'] S rest := by
        refine ⟨hyt, ?_, hsv, hS, hq⟩
        intro hm
        exact hA (by simp [hm])
      obtain ⟨Az₂, svz, Sz, restz, ⟨hz1, hz2, hz3, hz4, hz5⟩, _⟩ := ih A4 _ S rest hvd
      refine ⟨v ++ Az₂, svz, Sz, restz, ⟨?_, ?_, hz3, hz4, hz5⟩, ?_⟩
      · rw [hz1]
        simp
      · intro hm
        rcases List.mem_append.mp hm with h1 | h1
        · exact gt_notMem_of_ciEqL_imgTok v hvi h1
        · exact hz2 h1
      · intro _
        intro hh
        have := congrArg List.length hh
        have hlv : v.length = 4 := by rw [ciEqL_length v imgTok hvi]; rfl
        simp [hlv] at this
  | src v w hvs hw hwne hhq hsub ih =>
    rename_i x y
    intro A sv S rest hd
    obtain ⟨hy, hA, hsv, hS, hq⟩ := hd
    obtain ⟨c₀, c₁, c₂, c₃, hsveq, hci0, hci1, hci2, hci3⟩ := ciEqL_srcTok_shape sv hsv
    subst hsveq
    rw [show srcTok = ['s', 'r', 'c', '=', '"'] from rfl] at hy
    rcases A with _ | ⟨a1, _ | ⟨a2, _ | ⟨a3, _ | ⟨a4, _ | ⟨a5, A5⟩⟩⟩⟩⟩
    · -- the candidate aligns with the constructor's own src=" token
      simp only [List.nil_append, List.cons_append, List.cons.injEq] at hy
      obtain ⟨_, _, _, _, _, hwy⟩ := hy
      have hqw : '"' ∉ w := by
        intro hm
        exact (insChar_facts '"' (hw '"' hm)).1 rfl
      have hqy : '"' ∈ y := by
        have : '"' ∈ w ++ y := by
          rw [hwy]
          simp
        rcases List.mem_append.mp this with h1 | h1
        · exact absurd h1 hqw
        · exact h1
      have hqx : '"' ∈ x := (rw_quote_mem x y hsub).mpr hqy
      obtain ⟨S₃, r₃, hx0, hq₃, hne₃⟩ := quote_split x hqx
      refine ⟨[], v, S₃, r₃, ⟨?_, by simp, hvs, hne₃ hhq, hq₃⟩, fun hh => absurd rfl hh⟩
      rw [hx0]
      simp
    · exfalso
      simp only [List.cons_append, List.cons.injEq, List.nil_append] at hy
      rw [← hy.2.1] at hci0
      exact absurd hci0 (by decide)
    · exfalso
      simp only [List.cons_append, List.cons.injEq, List.nil_append] at hy
      rw [← hy.2.2.1] at hci0
      exact absurd hci0 (by decide)
    · exfalso
      simp only [List.cons_append, List.cons.injEq, List.nil_append] at hy
      rw [← hy.2.2.2.1] at hci0
      exact absurd hci0 (by decide)
    · exfalso
      simp only [List.cons_append, List.cons.injEq, List.nil_append] at hy
      rw [← hy.2.2.2.2.1] at hci0
      exact absurd hci0 (by decide)
    · simp only [List.cons_append, List.cons.injEq, List.nil_append] at hy
      obtain ⟨ha1, ha2, ha3, ha4, ha5, hyt⟩ := hy
      -- hyt : w ++ y = A5 ++ ([c₀,c₁,c₂,c₃,'"'] ++ (S ++ '"' :: rest))
      rcases le_or_lt w.length A5.length with hle | hlt
      · obtain ⟨δ₂, hδ1, hδ2⟩ := append_inj_of_le w y A5 _ hyt hle
        have hvd : ValidDec y δ₂ [c₀, c₁, c₂, c₃, '"'] S rest := by
          refine ⟨hδ2, ?_, hsv, hS, hq⟩
          intro hm
          refine hA ?_
          rw [hδ1]
          simp [hm]
        obtain ⟨Az₂, svz, Sz, restz, ⟨hz1, hz2, hz3, hz4, hz5⟩, _⟩ := ih δ₂ _ S rest hvd
        refine ⟨v ++ Az₂, svz, Sz, restz, ⟨?_, ?_, hz3, hz4, hz5⟩, ?_⟩
        · rw [hz1]
          simp
        · intro hm
          rcases List.mem_append.mp hm with h1 | h1
          · exact gt_notMem_of_ciEqL_srcTok v hvs h1
          · exact hz2 h1
        · intro _
          intro hh
          have := congrArg List.length hh
          have hlv : v.length = 5 := by rw [ciEqL_length v srcTok hvs]; rfl
          simp [hlv] at this
      · exfalso
        obtain ⟨ε, hε1, hε2⟩ := append_inj_of_le A5 _ w y hyt.symm (by omega)
        cases ε with
        | nil =>
          rw [List.append_nil] at hε1
          rw [hε1] at hlt
          omega
        | cons e ε' =>
          have he : c₀ = e := by
            rw [List.cons_append] at hε2
            exact ((List.cons.injEq _ _ _ _).mp (by simpa using hε2)).1
          have hew : e ∈ w := by
            rw [hε1]
            simp
          have := (insChar_facts e (hw e hew)).2.2
          rw [← he] at this
          rw [this] at hci0
          exact Bool.false_ne_true hci0

theorem ciEqL_srcTok_build (b₀ b₁ b₂ b₃ : Char) (h0 : ciEqc b₀ 's' = true)
    (h1 : ciEqc b₁ 'r' = true) (h2 : ciEqc b₂ 'c' = true) (h3 : ciEqc b₃ '=' = true) :
    ciEqL [b₀, b₁, b₂, b₃, '"'] srcTok = true := by
  rw [show srcTok = ['s', 'r', 'c', '=', '"'] from rfl]
  simp only [ciEqL, Bool.and_eq_true]
  exact ⟨h0, h1, h2, h3, ciEqc_refl '"', trivial⟩

theorem ciEqL_imgTok_build (c₁ c₂ c₃ : Char) (h1 : ciEqc c₁ 'i' = true)
    (h2 : ciEqc c₂ 'm' = true) (h3 : ciEqc c₃ 'g' = true) :
    ciEqL ['<', c₁, c₂, c₃] imgTok = true := by
  rw [show imgTok = ['<', 'i', 'm', 'g'] from rfl]
  simp only [ciEqL, Bool.and_eq_true]
  exact ⟨ciEqc_refl '<', h1, h2, h3, trivial⟩

theorem rw_backport_full (z y : List Char) (hrw : Rw z y)
    (vi A sv S rest : List Char) (hd : FullDec y vi A sv S rest) :
    ∃ viz Az svz Sz restz, FullDec z viz Az svz Sz restz := by
  obtain ⟨hy, hvi, hA, hgtA, hsv, hS, hq⟩ := hd
  obtain ⟨d₁, d₂, d₃, hvieq, hd1, hd2, hd3⟩ := ciEqL_imgTok_shape vi hvi
  subst hvieq
  cases hrw with
  | nil => simp at hy
  | cons c hsub =>
    rename_i x y'
    rw [List.cons_append] at hy
    have hc : c = '<' := ((List.cons.injEq _ _ _ _).mp hy).1
    have hyt : y' = [d₁, d₂, d₃] ++ (A ++ (sv ++ (S ++ '"' :: rest))) :=
      ((List.cons.injEq _ _ _ _).mp hy).2
    have hcie : ciEqL [d₁, d₂, d₃] ['i', 'm', 'g'] = true := by
      simp only [ciEqL, Bool.and_eq_true]
      exact ⟨hd1, hd2, hd3, trivial⟩
    obtain ⟨vz, z₀, hz1, hz2, hz3⟩ := token_peel ['i', 'm', 'g'] (by decide)
      x y' hsub [d₁, d₂, d₃] _ hyt hcie
    have hvd : ValidDec (A ++ (sv ++ (S ++ '"' :: rest))) A sv S rest :=
      ⟨rfl, hgtA, hsv, hS, hq⟩
    obtain ⟨Az, svz, Sz, restz, ⟨he1, he2, he3, he4, he5⟩, hAne⟩ :=
      rw_backport z₀ _ hz3 A sv S rest hvd
    refine ⟨'<' :: vz, Az, svz, Sz, restz, ?_, ?_, hAne hA, he2, he3, he4, he5⟩
    · rw [hc, hz1, he1]
      simp
    · rcases vz with _ | ⟨v1, _ | ⟨v2, _ | ⟨v3, _ | ⟨v4, vz'⟩⟩⟩⟩ <;>
        simp only [ciEqL, Bool.and_eq_true, Bool.false_eq_true, and_false, false_and] at hz2
      obtain ⟨hv1, hv2, hv3, -⟩ := hz2
      exact ciEqL_imgTok_build v1 v2 v3 hv1 hv2 hv3
  | img v hvi2 hsub =>
    rename_i x y₂
    obtain ⟨hveq, hy₂⟩ := List.append_inj hy rfl
    have hvd : ValidDec y₂ A sv S rest := ⟨hy₂, hgtA, hsv, hS, hq⟩
    obtain ⟨Az, svz, Sz, restz, ⟨he1, he2, he3, he4, he5⟩, hAne⟩ :=
      rw_backport x _ hsub A sv S rest hvd
    exact ⟨v, Az, svz, Sz, restz, by rw [he1], hvi2, hAne hA, he2, he3, he4, he5⟩
  | src v w hvs hw hwne hhq hsub =>
    exfalso
    rw [show srcTok = ['s', 'r', 'c', '=', '"'] from rfl] at hy
    rw [List.cons_append] at hy
    have h5 : 's' = '<' := ((List.cons.injEq _ _ _ _).mp hy).1
    simp at h5

theorem tryMatch_none_transfer (z y : List Char) (hrw : Rw z y)
    (hz : tryMatch z = none) : tryMatch y = none := by
  cases hy : tryMatch y with
  | none => rfl
  | some m =>
    exfalso
    have hfd := tryMatch_struct y m hy
    obtain ⟨viz, Az, svz, Sz, restz, hfdz⟩ := rw_backport_full z y hrw _ _ _ _ _ hfd
    exact tryMatch_none z hz _ _ _ _ _ hfdz

theorem max_transfer (z vi A sv S rest : List Char)
    (hz : FullDec z vi A sv S rest)
    (hmax : ∀ vi₂ A₂ sv₂ S₂ rest₂, FullDec z vi₂ A₂ sv₂ S₂ rest₂ → A₂.length ≤ A.length)
    (Y W vi' sv' : List Char) (hrw : Rw rest Y)
    (hvi' : ciEqL vi' imgTok = true) (hsv' : ciEqL sv' srcTok = true)
    (hW : ∀ c ∈ W, c ∈ insChars) :
    ∀ vi₂ A₂ sv₂ S₂ rest₂,
      FullDec (vi' ++ (A ++ (sv' ++ ((W ++ S) ++ '"' :: Y)))) vi₂ A₂ sv₂ S₂ rest₂ →
        A₂.length ≤ A.length := by
  obtain ⟨hzeq, hviz, hAne, hgtAz, hsvz, hSne, hSq⟩ := hz
  have hsvlen : sv.length = 5 := by rw [ciEqL_length _ _ hsvz]; rfl
  intro vi₂ A₂ sv₂ S₂ rest₂ hd₂
  by_contra hgt
  push_neg at hgt
  obtain ⟨hy, hvi₂, hA₂ne, hgtA₂, hsv₂, hS₂ne, hq₂⟩ := hd₂
  have hl1 : vi'.length = vi₂.length := by
    rw [ciEqL_length _ _ hvi', ciEqL_length _ _ hvi₂]
  obtain ⟨-, heq2⟩ := List.append_inj hy hl1
  obtain ⟨δ, hδ1, hδ2⟩ := append_inj_of_le A _ A₂ _ heq2 (by omega)
  obtain ⟨e₀, e₁, e₂, e₃, hsv'eq, he0, he1, he2, he3⟩ := ciEqL_srcTok_shape sv' hsv'
  obtain ⟨b₀, b₁, b₂, b₃, hsv₂eq, hb0, hb1, hb2, hb3⟩ := ciEqL_srcTok_shape sv₂ hsv₂
  subst hsv'eq
  subst hsv₂eq
  rcases δ with _ | ⟨d1, _ | ⟨d2, _ | ⟨d3, _ | ⟨d4, _ | ⟨d5, δ5⟩⟩⟩⟩⟩
  · rw [List.append_nil] at hδ1
    rw [hδ1] at hgt
    omega
  · simp only [List.cons_append, List.nil_append, List.cons.injEq, true_and,
      and_true] at hδ2
    have hx : ciEqc e₁ 's' = true := by rw [hδ2.2.1]; exact hb0
    have := ciEqc_trans 'r' e₁ 's' (ciEqc_symm e₁ 'r' he1) hx
    exact absurd this (by decide)
  · simp only [List.cons_append, List.nil_append, List.cons.injEq, true_and,
      and_true] at hδ2
    have hx : ciEqc e₂ 's' = true := by rw [hδ2.2.2.1]; exact hb0
    have := ciEqc_trans 'c' e₂ 's' (ciEqc_symm e₂ 'c' he2) hx
    exact absurd this (by decide)
  · simp only [List.cons_append, List.nil_append, List.cons.injEq, true_and,
      and_true] at hδ2
    have hx : ciEqc e₃ 's' = true := by rw [hδ2.2.2.2.1]; exact hb0
    have := ciEqc_trans '=' e₃ 's' (ciEqc_symm e₃ '=' he3) hx
    exact absurd this (by decide)
  · simp only [List.cons_append, List.nil_append, List.cons.injEq, true_and,
      and_true] at hδ2
    rw [← hδ2.2.2.2.2.1] at hb0
    exact absurd hb0 (by decide)
  · simp only [List.cons_append, List.nil_append, List.cons.injEq, true_and,
      and_true] at hδ2
    obtain ⟨-, -, -, -, -, hWS⟩ := hδ2
    have hδ5gt : '>' ∉ δ5 := fun hm => hgtA₂ (by rw [hδ1]; simp [hm])
    rcases le_or_lt (W ++ S).length δ5.length with hle | hlt
    · obtain ⟨γ, hγ1, hγ2⟩ := append_inj_of_le (W ++ S) ('"' :: Y) δ5 _ hWS hle
      cases γ with
      | nil =>
        rw [List.nil_append] at hγ2
        have hq0 : '"' = b₀ := ((List.cons.injEq _ _ _ _).mp hγ2).1
        rw [← hq0] at hb0
        exact absurd hb0 (by decide)
      | cons g γ' =>
        rw [List.cons_append] at hγ2
        have hg2 := (List.cons.injEq _ _ _ _).mp hγ2
        have hvdY : ValidDec Y γ' [b₀, b₁, b₂, b₃, '"'] S₂ rest₂ := by
          refine ⟨hg2.2, ?_, ciEqL_srcTok_build b₀ b₁ b₂ b₃ hb0 hb1 hb2 hb3,
            hS₂ne, hq₂⟩
          intro hm
          exact hδ5gt (by rw [hγ1]; simp [hm])
        obtain ⟨Az₄, sv₄, S₄, rest₄, ⟨hz4eq, hz4gt, hz4sv, hz4S, hz4q⟩, -⟩ :=
          rw_backport rest Y hrw γ' _ S₂ rest₂ hvdY
        have hSgt : '>' ∉ S := fun hm => hδ5gt (by rw [hγ1]; simp [hm])
        have hzfd : FullDec z vi (A ++ (sv ++ (S ++ '"' :: Az₄))) sv₄ S₄ rest₄ := by
          refine ⟨?_, hviz, by simp, ?_, hz4sv, hz4S, hz4q⟩
          · rw [hzeq, hz4eq]
            simp
          · simp only [List.mem_append, List.mem_cons]
            rintro (h | h | h | h | h)
            · exact hgtAz h
            · exact gt_notMem_of_ciEqL_srcTok sv hsvz h
            · exact hSgt h
            · simp at h
            · exact hz4gt h
        have hle2 := hmax _ _ _ _ _ hzfd
        simp only [List.length_append, List.length_cons] at hle2
        omega
    · obtain ⟨ε, hε1, hε2⟩ := append_inj_of_le δ5 _ (W ++ S) ('"' :: Y) hWS.symm
        (by omega)
      have hεq : '"' ∉ ε := by
        intro hm
        have hws : '"' ∈ W ++ S := by rw [hε1]; simp [hm]
        rcases List.mem_append.mp hws with h | h
        · exact (insChar_facts _ (hW _ h)).1 rfl
        · exact hSq h
      rcases le_or_lt 5 ε.length with h5le | h5lt
      · have hε2' : ([b₀, b₁, b₂, b₃, '"'] : List Char) ++ (S₂ ++ '"' :: rest₂) =
            ε ++ '"' :: Y := hε2
        obtain ⟨η, hη1, hη2⟩ := append_inj_of_le [b₀, b₁, b₂, b₃, '"'] _ ε _ hε2'
          (by simpa using h5le)
        exact hεq (by rw [hη1]; simp)
      · rcases ε with _ | ⟨f1, _ | ⟨f2, _ | ⟨f3, _ | ⟨f4, _ | ⟨f5, ε5⟩⟩⟩⟩⟩
        · rw [List.nil_append] at hε2
          have hq0 : b₀ = '"' := ((List.cons.injEq _ _ _ _).mp hε2).1
          rw [hq0] at hb0
          exact absurd hb0 (by decide)
        · simp only [List.cons_append, List.nil_append, List.cons.injEq, true_and,
            and_true] at hε2
          rw [hε2.2.1] at hb1
          exact absurd hb1 (by decide)
        · simp only [List.cons_append, List.nil_append, List.cons.injEq, true_and,
            and_true] at hε2
          rw [hε2.2.2.1] at hb2
          exact absurd hb2 (by decide)
        · simp only [List.cons_append, List.nil_append, List.cons.injEq, true_and,
            and_true] at hε2
          rw [hε2.2.2.2.1] at hb3
          exact absurd hb3 (by decide)
        · simp only [List.cons_append, List.nil_append, List.cons.injEq, true_and,
            and_true] at hε2
          obtain ⟨hc1, hc2, hc3, hc4, htail⟩ := hε2
          rw [hc1] at hb0
          rw [hc2] at hb1
          rw [hc3] at hb2
          rw [hc4] at hb3
          rcases le_or_lt W.length δ5.length with hWle | hWlt
          · obtain ⟨S₀, hS01, hS02⟩ := append_inj_of_le W S δ5 _ hε1 hWle
            obtain ⟨S₄, r₄, hrest4, hq4, hne4⟩ :=
              rw_value_split rest Y S₂ rest₂ hrw htail.symm hS₂ne hq₂
            have hzfd : FullDec z vi (A ++ (sv ++ S₀)) [f1, f2, f3, f4, '"'] S₄ r₄ := by
              refine ⟨?_, hviz, ?_, ?_,
                ciEqL_srcTok_build f1 f2 f3 f4 hb0 hb1 hb2 hb3, hne4, hq4⟩
              case refine_2 =>
                intro hh
                have hlen := congrArg List.length hh
                simp only [List.length_append, List.length_nil] at hlen
                omega
              · rw [hzeq, hrest4, hS02]
                simp
              · simp only [List.mem_append]
                rintro (h | h | h)
                · exact hgtAz h
                · exact gt_notMem_of_ciEqL_srcTok sv hsvz h
                · exact hδ5gt (by rw [hS01]; simp [h])
            have hle2 := hmax _ _ _ _ _ hzfd
            simp only [List.length_append] at hle2
            omega
          · obtain ⟨ω, hω1, hω2⟩ := append_inj_of_le δ5 _ W S hε1.symm (by omega)
            cases ω with
            | nil =>
              rw [List.append_nil] at hω1
              have := congrArg List.length hω1
              omega
            | cons o ω' =>
              rw [List.cons_append] at hω2
              have hfo : f1 = o := ((List.cons.injEq _ _ _ _).mp hω2).1
              have hoW : o ∈ W := by rw [hω1]; simp
              have hno := (insChar_facts o (hW o hoW)).2.2
              rw [hfo] at hb0
              rw [hb0] at hno
              exact absurd hno (by decide)
        · simp only [List.length_cons] at h5lt
          omega

theorem tryMatch_skip_transfer (z : List Char) (m : ImgMatch) (hm : tryMatch z = some m)
    (Y : List Char) (hrw : Rw m.rest Y) :
    tryMatch (m.imgTag ++ (m.attrs ++ (m.srcq ++ (m.value ++ '"' :: Y)))) =
      some ⟨m.imgTag, m.attrs, m.srcq, m.value, Y⟩ := by
  obtain ⟨hs, hvi, hA, hgtA, hsv, hS, hq⟩ := tryMatch_struct z m hm
  have hzfd : FullDec z m.imgTag m.attrs m.srcq m.value m.rest :=
    ⟨hs, hvi, hA, hgtA, hsv, hS, hq⟩
  have hmx := max_transfer z m.imgTag m.attrs m.srcq m.value m.rest hzfd
    (tryMatch_maximal z m hm) Y [] m.imgTag m.srcq hrw hvi hsv (by simp)
  apply tryMatch_eq_of
  · exact ⟨rfl, hvi, hA, hgtA, hsv, hS, hq⟩
  · intro vi₂ A₂ sv₂ S₂ rest₂ hd₂
    exact hmx vi₂ A₂ sv₂ S₂ rest₂ hd₂

theorem tryMatch_replace_transfer (z : List Char) (m : ImgMatch)
    (hm : tryMatch z = some m) (Y W : List Char) (hrw : Rw m.rest Y)
    (hW : ∀ c ∈ W, c ∈ insChars) :
    tryMatch (imgTok ++ (m.attrs ++ (srcTok ++ ((W ++ m.value) ++ '"' :: Y)))) =
      some ⟨imgTok, m.attrs, srcTok, W ++ m.value, Y⟩ := by
  obtain ⟨hs, hvi, hA, hgtA, hsv, hS, hq⟩ := tryMatch_struct z m hm
  have hzfd : FullDec z m.imgTag m.attrs m.srcq m.value m.rest :=
    ⟨hs, hvi, hA, hgtA, hsv, hS, hq⟩
  have hmx := max_transfer z m.imgTag m.attrs m.srcq m.value m.rest hzfd
    (tryMatch_maximal z m hm) Y W imgTok srcTok hrw (ciEqL_refl imgTok)
    (ciEqL_refl srcTok) hW
  apply tryMatch_eq_of
  · refine ⟨rfl, ciEqL_refl imgTok, hA, hgtA, ciEqL_refl srcTok, ?_, ?_⟩
    · intro hh
      rcases List.append_eq_nil.mp hh with ⟨-, h2⟩
      exact hS h2
    · intro hmem
      rcases List.mem_append.mp hmem with h | h
      · exact (insChar_facts _ (hW _ h)).1 rfl
      · exact hq h
  · intro vi₂ A₂ sv₂ S₂ rest₂ hd₂
    exact hmx vi₂ A₂ sv₂ S₂ rest₂ hd₂

theorem protected_newSrc (S : List Char) : protectedSrc (newSrc S) = true := by
  unfold protectedSrc newSrc
  by_cases hh : S.head? = some '/'
  · rw [if_pos hh]
    cases S with
    | nil => simp at hh
    | cons a S' =>
      simp only [List.head?_cons, Option.some.injEq] at hh
      subst hh
      simp only [Bool.or_eq_true]
      right
      rw [List.isPrefixOf_iff_prefix]
      exact List.prefix_append "../en/".data S'
  · rw [if_neg hh]
    simp only [Bool.or_eq_true]
    right
    rw [List.isPrefixOf_iff_prefix]
    exact List.prefix_append "../en/".data S

theorem rw_unprot_step (vi attrs srcq value rest adjRest W : List Char)
    (hvi : ciEqL vi imgTok = true) (hsv : ciEqL srcq srcTok = true)
    (hS : value ≠ []) (hq : '"' ∉ value)
    (hWins : ∀ c ∈ W, c ∈ insChars) (hWne : W ≠ [])
    (hr : Rw rest adjRest) :
    Rw (vi ++ (attrs ++ (srcq ++ (value ++ '"' :: rest))))
      (imgTok ++ (attrs ++ (srcTok ++ (W ++ (value ++ '"' :: adjRest))))) := by
  have hval : Rw (value ++ '"' :: rest) (value ++ '"' :: adjRest) := by
    have h2 := rw_append_left (value ++ ['"']) rest adjRest hr
    have h3 : (value ++ ['"']) ++ rest = value ++ '"' :: rest := by simp
    have h4 : (value ++ ['"']) ++ adjRest = value ++ '"' :: adjRest := by simp
    rw [h3, h4] at h2
    exact h2
  have hhead : (value ++ '"' :: rest).head? ≠ some '"' := by
    cases hv : value with
    | nil => exact absurd hv hS
    | cons a as =>
      simp only [List.cons_append, List.head?_cons, ne_eq, Option.some.injEq]
      intro hcq
      exact hq (by rw [hv, hcq]; simp)
  have hsrc := Rw.src srcq W hsv hWins hWne hhead hval
  have hattr := rw_append_left attrs _ _ hsrc
  exact Rw.img vi hvi hattr

theorem rw_adjust : ∀ n (x : List Char), x.length ≤ n →
    Rw x (adjustHtmlImagePaths x) := by
  intro n
  induction n with
  | zero =>
    intro x hx
    have hx0 : x = [] := List.eq_nil_of_length_eq_zero (by omega)
    subst hx0
    exact Rw.nil
  | succ f ih =>
    intro x hx
    cases x with
    | nil => exact Rw.nil
    | cons c cs =>
      cases hm : tryMatch (c :: cs) with
      | none =>
        rw [adjust_cons_none c cs hm]
        simp only [List.length_cons] at hx
        exact Rw.cons c (ih cs (by omega))
      | some m =>
        rw [adjust_cons_some c cs m hm]
        obtain ⟨hs, hvi, hA, hgtA, hsv, hS, hq⟩ := tryMatch_struct _ m hm
        have hrl := tryMatch_rest_length _ m hm
        simp only [List.length_cons] at hx hrl
        have hihr : Rw m.rest (adjustHtmlImagePaths m.rest) := ih m.rest (by omega)
        rw [hs]
        unfold rewriteMatch
        by_cases hp : protectedSrc m.value = true
        · rw [if_pos hp]
          have h1 : (m.imgTag ++ m.attrs ++ m.srcq ++ m.value ++ ['"']) ++
              adjustHtmlImagePaths m.rest =
              m.imgTag ++ (m.attrs ++ (m.srcq ++ (m.value ++
                '"' :: adjustHtmlImagePaths m.rest))) := by simp
          rw [h1]
          have h2 := rw_append_left
            (m.imgTag ++ (m.attrs ++ (m.srcq ++ (m.value ++ ['"']))))
            m.rest (adjustHtmlImagePaths m.rest) hihr
          have h3 : (m.imgTag ++ (m.attrs ++ (m.srcq ++ (m.value ++ ['"'])))) ++
              m.rest =
              m.imgTag ++ (m.attrs ++ (m.srcq ++ (m.value ++ '"' :: m.rest))) := by
            simp
          have h4 : (m.imgTag ++ (m.attrs ++ (m.srcq ++ (m.value ++ ['"'])))) ++
              adjustHtmlImagePaths m.rest =
              m.imgTag ++ (m.attrs ++ (m.srcq ++ (m.value ++
                '"' :: adjustHtmlImagePaths m.rest))) := by simp
          rw [h3, h4] at h2
          exact h2
        · rw [if_neg hp]
          have hns : ∃ Wp, (∀ c ∈ Wp, c ∈ insChars) ∧ Wp ≠ [] ∧
              newSrc m.value = Wp ++ m.value := by
            unfold newSrc
            by_cases hh : m.value.head? = some '/'
            · exact ⟨"../en".data, by decide, by decide, by rw [if_pos hh]⟩
            · exact ⟨"../en/".data, by decide, by decide, by rw [if_neg hh]⟩
          obtain ⟨Wp, hWins, hWne, hWeq⟩ := hns
          have hstep := rw_unprot_step m.imgTag m.attrs m.srcq m.value m.rest
            (adjustHtmlImagePaths m.rest) Wp hvi hsv hS hq hWins hWne hihr
          have hR : ("<img".data ++ m.attrs ++ "src=\"".data ++ newSrc m.value ++
              ['"']) ++ adjustHtmlImagePaths m.rest =
              imgTok ++ (m.attrs ++ (srcTok ++ (Wp ++ (m.value ++ '"' ::
                adjustHtmlImagePaths m.rest)))) := by
            rw [hWeq]
            simp [imgTok, srcTok]
          rw [hR]
          exact hstep

theorem adjust_adjust_fuel : ∀ n (z : List Char), z.length ≤ n →
    adjustHtmlImagePaths (adjustHtmlImagePaths z) = adjustHtmlImagePaths z := by
  intro n
  induction n with
  | zero =>
    intro z hz
    have hz0 : z = [] := List.eq_nil_of_length_eq_zero (by omega)
    subst hz0
    rfl
  | succ f ih =>
    intro z hz
    cases z with
    | nil => rfl
    | cons c cs =>
      cases hm : tryMatch (c :: cs) with
      | none =>
        rw [adjust_cons_none c cs hm]
        have hrw : Rw (c :: cs) (c :: adjustHtmlImagePaths cs) :=
          Rw.cons c (rw_adjust cs.length cs (le_refl _))
        have hnone := tryMatch_none_transfer (c :: cs) _ hrw hm
        rw [adjust_cons_none c _ hnone]
        simp only [List.length_cons] at hz
        rw [ih cs (by omega)]
      | some m =>
        rw [adjust_cons_some c cs m hm]
        obtain ⟨hs, hvi, hA, hgtA, hsv, hS, hq⟩ := tryMatch_struct _ m hm
        have hrl := tryMatch_rest_length _ m hm
        simp only [List.length_cons] at hz hrl
        have hrest : adjustHtmlImagePaths (adjustHtmlImagePaths m.rest) =
            adjustHtmlImagePaths m.rest := ih m.rest (by omega)
        have hrwrest : Rw m.rest (adjustHtmlImagePaths m.rest) :=
          rw_adjust m.rest.length m.rest (le_refl _)
        unfold rewriteMatch
        by_cases hp : protectedSrc m.value = true
        · rw [if_pos hp]
          obtain ⟨c₁, c₂, c₃, hvieq, -, -, -⟩ := ciEqL_imgTok_shape m.imgTag hvi
          have hT : (m.imgTag ++ m.attrs ++ m.srcq ++ m.value ++ ['"']) ++
              adjustHtmlImagePaths m.rest =
              m.imgTag ++ (m.attrs ++ (m.srcq ++ (m.value ++ '"' ::
                adjustHtmlImagePaths m.rest))) := by simp
          have hsk := tryMatch_skip_transfer (c :: cs) m hm
            (adjustHtmlImagePaths m.rest) hrwrest
          rw [hT, hvieq]
          rw [hvieq] at hsk
          have hcons : (['<', c₁, c₂, c₃] : List Char) ++ (m.attrs ++ (m.srcq ++
              (m.value ++ '"' :: adjustHtmlImagePaths m.rest))) =
              '<' :: c₁ :: c₂ :: c₃ :: (m.attrs ++ (m.srcq ++
                (m.value ++ '"' :: adjustHtmlImagePaths m.rest))) := rfl
          rw [hcons]
          rw [hcons] at hsk
          rw [adjust_cons_some _ _ _ hsk]
          unfold rewriteMatch
          rw [if_pos hp]
          rw [hrest]
          simp
        · rw [if_neg hp]
          have hns : ∃ Wp, (∀ c ∈ Wp, c ∈ insChars) ∧
              newSrc m.value = Wp ++ m.value := by
            unfold newSrc
            by_cases hh : m.value.head? = some '/'
            · exact ⟨"../en".data, by decide, by rw [if_pos hh]⟩
            · exact ⟨"../en/".data, by decide, by rw [if_neg hh]⟩
          obtain ⟨Wp, hWins, hWeq⟩ := hns
          have hrp := tryMatch_replace_transfer (c :: cs) m hm
            (adjustHtmlImagePaths m.rest) Wp hrwrest hWins
          have hT : ("<img".data ++ m.attrs ++ "src=\"".data ++ newSrc m.value ++
              ['"']) ++ adjustHtmlImagePaths m.rest =
              imgTok ++ (m.attrs ++ (srcTok ++ ((Wp ++ m.value) ++ '"' ::
                adjustHtmlImagePaths m.rest))) := by
            rw [hWeq]
            simp [imgTok, srcTok]
          rw [hT]
          have hcons : imgTok ++ (m.attrs ++ (srcTok ++ ((Wp ++ m.value) ++ '"' ::
              adjustHtmlImagePaths m.rest))) =
              '<' :: 'i' :: 'm' :: 'g' :: (m.attrs ++ (srcTok ++
                ((Wp ++ m.value) ++ '"' :: adjustHtmlImagePaths m.rest))) := rfl
          rw [hcons]
          rw [hcons] at hrp
          rw [adjust_cons_some _ _ _ hrp]
          have hprot : protectedSrc (Wp ++ m.value) = true := by
            rw [← hWeq]
            exact protected_newSrc m.value
          unfold rewriteMatch
          rw [if_pos hprot]
          rw [hrest]
          simp [imgTok, srcTok]

/-- C9: `adjustHtmlImagePaths` is idempotent — rewriting a rewritten text
changes nothing — and every matched image reference whose `src` value starts
with an absolute URL scheme (`http://` or `https://`) or a data URI (`data:`)
is reproduced verbatim by the rewrite. -/
theorem adjust_idempotent (x : List Char) :
    adjustHtmlImagePaths (adjustHtmlImagePaths x) = adjustHtmlImagePaths x ∧
    ∀ m : ImgMatch, tryMatch x = some m →
      ("http://".data.isPrefixOf m.value || "https://".data.isPrefixOf m.value ||
        "data:".data.isPrefixOf m.value) = true →
      adjustHtmlImagePaths x =
        m.imgTag ++ m.attrs ++ m.srcq ++ m.value ++ ['"'] ++
          adjustHtmlImagePaths m.rest := by
  constructor
  · exact adjust_adjust_fuel x.length x (le_refl _)
  · intro m hm hpre
    cases x with
    | nil =>
      rw [show tryMatch [] = none from rfl] at hm
      simp at hm
    | cons c cs =>
      rw [adjust_cons_some c cs m hm]
      have hprot : protectedSrc m.value = true := by
        unfold protectedSrc
        simp only [Bool.or_eq_true] at hpre ⊢
        tauto
      unfold rewriteMatch
      rw [if_pos hprot]

theorem adjust_idempotent_witness :
    (adjustHtmlImagePaths (adjustHtmlImagePaths "<img a src=\"http://x/y.png\">".data) =
        adjustHtmlImagePaths "<img a src=\"http://x/y.png\">".data) ∧
      adjustHtmlImagePaths "<img a src=\"http://x/y.png\">".data =
        "<img".data ++ " a ".data ++ "src=\"".data ++ "http://x/y.png".data ++
          ['"'] ++ adjustHtmlImagePaths ">".data :=
  ⟨(adjust_idempotent "<img a src=\"http://x/y.png\">".data).1,
   (adjust_idempotent "<img a src=\"http://x/y.png\">".data).2
     ⟨"<img".data, " a ".data, "src=\"".data, "http://x/y.png".data, ">".data⟩
     (by rfl) (by rfl)⟩
